import Mathlib

/-!
# caddy-exec: the `exec` directive parser and the global merge

A shallow embedding of `caddyfile.go` (package `command`): the directive parser
`Cmd.UnmarshalCaddyfile` / `Cmd.unmarshalBlock` / `Cmd.unmarshalLog`, the two entry points
`parseHandlerCaddyfileBlock` and `parseGlobalCaddyfileBlock`, and the helper
`newCommandFromDispenser`.

Go methods with a pointer receiver mutate the receiver and the dispenser in place and return
an `error`; they are embedded as functions returning the updated descriptor, the updated
dispenser and an optional error, so that the state left behind by a failing call is visible
to the caller exactly as in Go.
-/

namespace CaddyExec

/-! ## The token dispenser (external collaborator) -/

/-- Modelled from the spec: a token handed out by the Token Dispenser. Only what the dispenser
observes is kept: the token text and whether the token starts a new line with respect to the
token before it (file and line numbers are used by the dispenser for nothing else). -/
structure Token where
  text : String
  newLine : Bool
  deriving DecidableEq, Repr

/-- Modelled from the spec: the Token Dispenser state (`caddyfile.Dispenser`): the tokens of one
directive, a cursor (`-1` before the first token) and the current block nesting. -/
structure Dispenser where
  tokens : List Token
  cursor : Int
  nesting : Int
  deriving DecidableEq, Repr

/-- Modelled from the spec: `caddyfile.NewDispenser`, a fresh dispenser over the tokens of one
directive. -/
def NewDispenser (tokens : List Token) : Dispenser :=
  { tokens := tokens, cursor := -1, nesting := 0 }

/-- Modelled from the spec: the token under the cursor, if the cursor is in range. -/
def Dispenser.Token? (d : Dispenser) : Option Token :=
  if d.cursor < 0 then none else d.tokens.get? d.cursor.toNat

/-- Modelled from the spec: `Dispenser.Val`, current-token-value; the empty string when the
cursor is out of range. -/
def Dispenser.Val (d : Dispenser) : String :=
  match d.Token? with
  | some t => t.text
  | none => ""

/-- Modelled from the spec: `Dispenser.Next`, next-token regardless of line. -/
def Dispenser.Next (d : Dispenser) : Bool × Dispenser :=
  if d.cursor < (d.tokens.length : Int) - 1 then
    (true, { d with cursor := d.cursor + 1 })
  else
    (false, d)

/-- Modelled from the spec: `Dispenser.nextOnSameLine`, advance only if the next token is on
the line of the current one (the very first token is always taken). -/
def Dispenser.nextOnSameLine (d : Dispenser) : Bool × Dispenser :=
  if d.cursor < 0 then
    (true, { d with cursor := d.cursor + 1 })
  else
    match d.tokens.get? (d.cursor + 1).toNat with
    | some next =>
      if next.newLine then (false, d) else (true, { d with cursor := d.cursor + 1 })
    | none => (false, d)

/-- Modelled from the spec: `Dispenser.NextArg`, the next argument on the current line; an
opening brace is not an argument and is rolled back. -/
def Dispenser.NextArg (d : Dispenser) : Bool × Dispenser :=
  match d.nextOnSameLine with
  | (false, d1) => (false, d1)
  | (true, d1) =>
    if d1.Val = "\x7b" then
      (false, { d1 with cursor := d1.cursor - 1 })
    else
      (true, d1)

/-- The rounds given to a loop that reads tokens: every round moves the cursor forward, so one
round per token not yet read, and one more to see the end, is enough
(`RemainingArgsLoop_stable`, `segmentArgsLoop_stable`, `segmentBlockLoop_stable`,
`unmarshalBlockLoop_stable`, `unmarshalBlock_fuel`). -/
def Dispenser.rounds (d : Dispenser) : Nat :=
  ((d.tokens.length : Int) - d.cursor).toNat + 1

/-- Modelled from the spec: the loop of `Dispenser.RemainingArgs`, at most `fuel` rounds of
`for d.NextArg() { args = append(args, d.Val()) }`. -/
def Dispenser.RemainingArgsLoop : Nat → Dispenser → List String → List String × Dispenser
  | 0, d, acc => (acc, d)
  | fuel + 1, d, acc =>
    match d.NextArg with
    | (false, d1) => (acc, d1)
    | (true, d1) => Dispenser.RemainingArgsLoop fuel d1 (acc ++ [d1.Val])

/-- Modelled from the spec: `Dispenser.RemainingArgs`, remaining-arguments-on-line. Every
round of the loop moves the cursor forward. -/
def Dispenser.RemainingArgs (d : Dispenser) : List String × Dispenser :=
  Dispenser.RemainingArgsLoop d.rounds d []

/-- Modelled from the spec: `Dispenser.Args` with one target: `none` (target untouched) when
no argument follows. -/
def Dispenser.Args1 (d : Dispenser) : Option String × Dispenser :=
  match d.NextArg with
  | (false, d1) => (none, d1)
  | (true, d1) => (some d1.Val, d1)

/-- Modelled from the spec: `Dispenser.NextBlock`, enter-nested-block: opens the block on the
first call and afterwards hands out the block's tokens one by one, tracking nested braces,
until the block is closed. -/
def Dispenser.NextBlock (d : Dispenser) (initialNestingLevel : Int) : Bool × Dispenser :=
  if d.nesting > initialNestingLevel then
    match d.Next with
    | (false, d1) => (false, d1)
    | (true, d1) =>
      -- `if d.Val() == "}" && !d.nextOnSameLine()`
      let r1 : Bool × Dispenser :=
        if d1.Val = "\x7d" then
          match d1.nextOnSameLine with
          | (s, d2) => (!s, d2)
        else (false, d1)
      if r1.1 then
        let d3 := { r1.2 with nesting := r1.2.nesting - 1 }
        (decide (d3.nesting > initialNestingLevel), d3)
      else
        -- `else if d.Val() == "{" && !d.nextOnSameLine()`
        let r2 : Bool × Dispenser :=
          if r1.2.Val = "\x7b" then
            match r1.2.nextOnSameLine with
            | (s, d2) => (!s, d2)
          else (false, r1.2)
        if r2.1 then
          let d3 := { r2.2 with nesting := r2.2.nesting + 1 }
          (decide (d3.nesting > initialNestingLevel), d3)
        else
          (decide (r2.2.nesting > initialNestingLevel), r2.2)
  else
    match d.nextOnSameLine with
    | (false, d1) => (false, d1)
    | (true, d1) =>
      if d1.Val ≠ "\x7b" then
        (false, { d1 with cursor := d1.cursor - 1 })
      else
        let d2 := d1.Next.2
        if d2.Val = "\x7d" then
          (false, d2)
        else
          (true, { d2 with nesting := d2.nesting + 1 })

/-- Modelled from the spec: the tokens collected by `Dispenser.NextSegment` inside a block,
at most `fuel` rounds of `for d.NextBlock(nesting)`; the flag records whether a block was
opened. -/
def Dispenser.segmentBlockLoop (nesting : Int) :
    Nat → Dispenser → Bool → List Token → Bool × List Token × Dispenser
  | 0, d, opened, acc => (opened, acc, d)
  | fuel + 1, d, opened, acc =>
    match d.NextBlock nesting with
    | (false, d1) => (opened, acc, d1)
    | (true, d1) =>
      let acc1 :=
        if opened then acc
        else acc ++ ({ d1 with cursor := d1.cursor - 1 } : Dispenser).Token?.toList
      Dispenser.segmentBlockLoop nesting fuel d1 true (acc1 ++ d1.Token?.toList)

/-- Modelled from the spec: the argument tokens collected by `Dispenser.NextSegment`. -/
def Dispenser.segmentArgsLoop : Nat → Dispenser → List Token → List Token × Dispenser
  | 0, d, acc => (acc, d)
  | fuel + 1, d, acc =>
    match d.NextArg with
    | (false, d1) => (acc, d1)
    | (true, d1) => Dispenser.segmentArgsLoop fuel d1 (acc ++ d1.Token?.toList)

/-- Modelled from the spec: `Dispenser.NextSegment`: the current token, the rest of its line
and the block that follows, if any; the closing brace is included but not consumed. -/
def Dispenser.NextSegment (d : Dispenser) : List Token × Dispenser :=
  match Dispenser.segmentArgsLoop d.rounds d d.Token?.toList with
  | (tkns, d1) =>
    match Dispenser.segmentBlockLoop d1.nesting d1.rounds d1 false tkns with
    | (opened, tkns1, d2) =>
      (if opened then tkns1 ++ d2.Token?.toList else tkns1, d2)

/-! ## Errors -/

/-- The errors of the parser. `err` is `d.Err` / `d.Errf` with the formatted message (the
position is left out), `argErr` is `d.ArgErr()` raised at the token with the given text.
`fuel` is not a Go error: it marks a loop of the model that was cut off, which
`unmarshalBlock_fuel` shows never happens. -/
inductive ParseError where
  | err (msg : String)
  | argErr (val : String)
  | fuel
  deriving DecidableEq, Repr

/-! ## The data model -/

/-- Modelled from the spec: an instantiated module of the host registry after it has read its
Caddyfile segment: the Go type name (`%T`), whether it has the writer-opener capability, and
its configuration. -/
structure ModuleInstance where
  typeName : String
  isWriterOpener : Bool
  config : String
  deriving DecidableEq, Repr

/-- Modelled from the spec: a value with the writer-opener capability: one of the three fixed
built-in sinks or a module resolved through the registry. -/
inductive WriterOpener where
  | StdoutWriter
  | StderrWriter
  | DiscardWriter
  | module (m : ModuleInstance)
  deriving DecidableEq, Repr

/-- Modelled from the spec: the encoded sink descriptor (`json.RawMessage`) produced by
`caddyconfig.JSONModuleObject`: the encoding of the value tagged with `fieldName: fieldVal`. -/
structure RawMessage where
  fieldName : String
  fieldVal : String
  val : WriterOpener
  deriving DecidableEq, Repr

/-- Modelled from the spec: `caddyconfig.JSONModuleObject(val, fieldName, fieldVal, nil)`. -/
def JSONModuleObject (val : WriterOpener) (fieldName fieldVal : String) : RawMessage :=
  { fieldName := fieldName, fieldVal := fieldVal, val := val }

/-- Modelled from the spec: the Command Descriptor (`Cmd`, declared outside `caddyfile.go`),
with the fields the parser writes. A nil slice and an empty slice are both the empty list. -/
structure Cmd where
  Command : String
  Args : List String
  Directory : String
  Foreground : Bool
  Timeout : String
  At : List String
  StdWriterRaw : Option RawMessage
  ErrWriterRaw : Option RawMessage
  deriving DecidableEq, Repr

/-- The zero value of `Cmd` (`var cmd Cmd`). -/
def Cmd.zero : Cmd :=
  { Command := "", Args := [], Directory := "", Foreground := false, Timeout := "",
    At := [], StdWriterRaw := none, ErrWriterRaw := none }

/-- Modelled from the spec: the Aggregate (`App`): the ordered list of descriptors. -/
structure App where
  Commands : List Cmd
  deriving DecidableEq, Repr

/-- Modelled from the spec: the handler built from a descriptor (`Middleware{Cmd: cmd}`). -/
structure Middleware where
  Cmd : Cmd
  deriving DecidableEq, Repr

/-- Modelled from the spec: a registered module: `typeName` is the type of `mod.New()`, and
`unmarshaler` is its `UnmarshalCaddyfile` run on a fresh dispenser over a segment, failing
with a message (`none` when the instance is not a Caddyfile unmarshaler). -/
structure ModuleInfo where
  typeName : String
  unmarshaler : Option (List Token → Except String ModuleInstance)

/-- Modelled from the spec: the host's module registry, resolve-by-identifier
(`caddy.GetModule`). -/
abbrev Registry := String → Option ModuleInfo

/-- Modelled from the spec: `caddyfile.UnmarshalModule`: look the identifier up, instantiate,
and let the instance read the next segment. -/
def UnmarshalModule (reg : Registry) (d : Dispenser) (moduleID : String) :
    Except ParseError ModuleInstance × Dispenser :=
  match reg moduleID with
  | none =>
    (.error (.err ("getting module named '" ++ moduleID ++ "': module not registered: "
      ++ moduleID)), d)
  | some mod =>
    match mod.unmarshaler with
    | none =>
      (.error (.err ("module " ++ moduleID ++ " is not a Caddyfile unmarshaler; is "
        ++ mod.typeName)), d)
    | some unm =>
      match d.NextSegment with
      | (segment, d1) =>
        match unm segment with
        | .error e => (.error (.err e), d1)
        | .ok inst => (.ok inst, d1)

/-- Modelled from the spec: the structured-encoding codec between an Aggregate and the opaque
encoded value `V` handed to the host: `encode` is `caddyconfig.JSON(exec, nil)` and `decode` is
`json.Unmarshal(value, &exec)` on a zero-valued `App`, which may fail with a message. -/
structure Codec (V : Type) where
  encode : App → V
  decode : V → Except String App

/-- Modelled from the spec: the tagged configuration payload, `httpcaddyfile.App`. -/
structure HttpApp (V : Type) where
  Name : String
  Value : V
  deriving DecidableEq, Repr

/-- Modelled from the spec: a non-nil `interface{}` value handed in as the previous state:
either an `httpcaddyfile.App` or a value of some other type. -/
inductive Any (V : Type) where
  | app (a : HttpApp V)
  | other (typeName : String)

/-! ## The parser (`caddyfile.go`) -/

/-- State left by a call on a descriptor: the descriptor, the dispenser, and the returned
`error` (`none` for `nil`). -/
structure Outcome where
  cmd : Cmd
  disp : Dispenser
  err : Option ParseError
  deriving DecidableEq, Repr

/-- `Cmd.unmarshalLog` (the Sink Resolver): read the sink name and resolve it. -/
def Cmd.unmarshalLog (reg : Registry) (_c : Cmd) (d : Dispenser) :
    Except ParseError RawMessage × Dispenser :=
  match d.NextArg with
  | (false, d1) => (.error (.argErr d1.Val), d1)
  | (true, d1) =>
    let moduleName := d1.Val
    match moduleName with
    | "stdout" => (.ok (JSONModuleObject .StdoutWriter "output" moduleName), d1)
    | "stderr" => (.ok (JSONModuleObject .StderrWriter "output" moduleName), d1)
    | "discard" => (.ok (JSONModuleObject .DiscardWriter "output" moduleName), d1)
    | _ =>
      let modID := "caddy.logging.writers." ++ moduleName
      match UnmarshalModule reg d1 modID with
      | (.error e, d2) => (.error e, d2)
      | (.ok unm, d2) =>
        if unm.isWriterOpener then
          (.ok (JSONModuleObject (.module unm) "output" moduleName), d2)
        else
          (.error (.err ("module " ++ modID ++ " (" ++ unm.typeName
            ++ ") is not a WriterOpener")), d2)

/-- The body of the loop of `Cmd.unmarshalBlock`: the `switch d.Val()` that dispatches one
block keyword. -/
def Cmd.unmarshalField (reg : Registry) (c : Cmd) (d : Dispenser) : Outcome :=
  match d.Val with
  | "command" =>
    if c.Command ≠ "" then
      ⟨c, d, some (.err "command specified twice")⟩
    else
      match d.Args1 with
      | (none, d1) => ⟨c, d1, some (.argErr d1.Val)⟩
      | (some v, d1) =>
        match d1.RemainingArgs with
        | (args, d2) => ⟨{ c with Command := v, Args := args }, d2, none⟩
  | "args" =>
    if c.Args.length > 0 then
      ⟨c, d, some (.err "args specified twice")⟩
    else
      match d.RemainingArgs with
      | (args, d1) => ⟨{ c with Args := args }, d1, none⟩
  | "directory" =>
    match d.Args1 with
    | (none, d1) => ⟨c, d1, some (.argErr d1.Val)⟩
    | (some v, d1) => ⟨{ c with Directory := v }, d1, none⟩
  | "foreground" => ⟨{ c with Foreground := true }, d, none⟩
  | "startup" => ⟨{ c with At := c.At ++ ["startup"] }, d, none⟩
  | "shutdown" => ⟨{ c with At := c.At ++ ["shutdown"] }, d, none⟩
  | "timeout" =>
    match d.Args1 with
    | (none, d1) => ⟨c, d1, some (.argErr d1.Val)⟩
    | (some v, d1) => ⟨{ c with Timeout := v }, d1, none⟩
  | "log" =>
    match c.unmarshalLog reg d with
    | (.error e, d1) => ⟨c, d1, some e⟩
    | (.ok rawMessage, d1) => ⟨{ c with StdWriterRaw := some rawMessage }, d1, none⟩
  | "err_log" =>
    match c.unmarshalLog reg d with
    | (.error e, d1) => ⟨c, d1, some e⟩
    | (.ok rawMessage, d1) => ⟨{ c with ErrWriterRaw := some rawMessage }, d1, none⟩
  | v => ⟨c, d, some (.err ("'" ++ v ++ "' not expected"))⟩

/-- The loop of `Cmd.unmarshalBlock`, at most `fuel` rounds of `for d.NextBlock(0)`. -/
def Cmd.unmarshalBlockLoop (reg : Registry) : Nat → Cmd → Dispenser → Outcome
  | 0, c, d => ⟨c, d, some .fuel⟩
  | fuel + 1, c, d =>
    match d.NextBlock 0 with
    | (false, d1) => ⟨c, d1, none⟩
    | (true, d1) =>
      match c.unmarshalField reg d1 with
      | ⟨c1, d2, some e⟩ => ⟨c1, d2, some e⟩
      | ⟨c1, d2, none⟩ => Cmd.unmarshalBlockLoop reg fuel c1 d2

/-- `Cmd.unmarshalBlock`: parse the block of the directive, field by field. -/
def Cmd.unmarshalBlock (reg : Registry) (c : Cmd) (d : Dispenser) : Outcome :=
  Cmd.unmarshalBlockLoop reg d.rounds c d

/-- The inline part of `Cmd.UnmarshalCaddyfile`: consume the directive name, take the command
if present, and take everything else on the line as args. -/
def Cmd.unmarshalInline (c : Cmd) (d : Dispenser) : Cmd × Dispenser :=
  -- `if d.NextArg() && d.NextArg()`
  let r : Bool × Dispenser :=
    match d.NextArg with
    | (false, d1) => (false, d1)
    | (true, d1) => d1.NextArg
  let c1 : Cmd := if r.1 then { c with Command := r.2.Val } else c
  match r.2.RemainingArgs with
  | (args, d2) => ({ c1 with Args := args }, d2)

/-- `Cmd.UnmarshalCaddyfile`: the inline part, then the block. -/
def Cmd.UnmarshalCaddyfile (reg : Registry) (c : Cmd) (d : Dispenser) : Outcome :=
  match c.unmarshalInline d with
  | (c1, d1) => c1.unmarshalBlock reg d1

/-- `newCommandFromDispenser`: the named results are `cmd`, on which `UnmarshalCaddyfile` is
called, and `err`, which is never assigned: the error returned by `cmd.UnmarshalCaddyfile(d)`
is discarded by the expression statement, and the bare `return` yields `(cmd, nil)`. -/
def newCommandFromDispenser (reg : Registry) (d : Dispenser) : Cmd × Option ParseError :=
  let cmd := (Cmd.zero.UnmarshalCaddyfile reg d).cmd
  let err : Option ParseError := none
  (cmd, err)

/-- `parseHandlerCaddyfileBlock`: the handler-scoped entry point. -/
def parseHandlerCaddyfileBlock (reg : Registry) (h : Dispenser) :
    Middleware × Option ParseError :=
  match newCommandFromDispenser reg h with
  | (cmd, err) => ({ Cmd := cmd }, err)

/-- The first step of `parseGlobalCaddyfileBlock`: `var exec App`, then decode the existing
value into it if `prev` is a non-nil `httpcaddyfile.App`; otherwise `exec` stays empty. -/
def decodePrev {V : Type} (codec : Codec V) (prev : Option (Any V)) : Except String App :=
  match prev with
  | some (.app app) => codec.decode app.Value
  | _ => .ok { Commands := [] }

/-- `parseGlobalCaddyfileBlock`: the top-level entry point: decode the previous aggregate,
parse the declaration, default the trigger, append, encode. -/
def parseGlobalCaddyfileBlock {V : Type} (codec : Codec V) (reg : Registry) (d : Dispenser)
    (prev : Option (Any V)) : Option (HttpApp V) × Option ParseError :=
  match decodePrev codec prev with
  | .error e => (none, some (.err ("internal error: " ++ e)))
  | .ok exec =>
    match newCommandFromDispenser reg d with
    | (_, some err) => (none, some err)
    | (cmd, none) =>
      let cmd1 : Cmd := if cmd.At.length = 0 then { cmd with At := cmd.At ++ ["startup"] } else cmd
      let exec1 : App := { exec with Commands := exec.Commands ++ [cmd1] }
      (some { Name := "exec", Value := codec.encode exec1 }, none)

/-! ## Reading a Caddyfile text as tokens -/

/-- Tokens of one line of text: the first token starts the line. -/
def lineTokens : List String → List Token
  | [] => []
  | t :: ts => ⟨t, true⟩ :: ts.map (fun s => ⟨s, false⟩)

/-- Tokens of a directive written on several lines. -/
def linesTokens (lines : List (List String)) : List Token :=
  (lines.map lineTokens).flatten

/-- An empty registry: no module is registered. -/
def noModules : Registry := fun _ => none

/-- Modelled from the spec: the host's configuration load, which calls
`parseGlobalCaddyfileBlock` once per top-level declaration, each on a fresh dispenser, and
hands the value returned by one call to the next as its previous value; the first error
aborts the load. -/
def loadGlobal {V : Type} (codec : Codec V) (reg : Registry) :
    List Dispenser → Option (Any V) → Option (Any V) × Option ParseError
  | [], prev => (prev, none)
  | d :: ds, prev =>
    match parseGlobalCaddyfileBlock codec reg d prev with
    | (some payload, none) => loadGlobal codec reg ds (some (.app payload))
    | (_, some err) => (none, some err)
    | (none, none) => loadGlobal codec reg ds none

/-- The descriptor that `parseGlobalCaddyfileBlock` appends for a declaration: the descriptor
returned by `newCommandFromDispenser`, with `startup` as its trigger if it has none. -/
def globalDescriptor (reg : Registry) (d : Dispenser) : Cmd :=
  let cmd := (newCommandFromDispenser reg d).1
  if cmd.At.length = 0 then { cmd with At := cmd.At ++ ["startup"] } else cmd

/-! ## Observing the loop of `unmarshalBlock` -/

/-- The descriptor and the dispenser at the moment round `k` (counted from 0) of the loop of
`Cmd.unmarshalBlock` dispatches its keyword, the current token: `NextBlock(0)` has just
returned true and every earlier round ended without error. `none` if the loop does not get
that far. -/
def Cmd.blockState (reg : Registry) : Nat → Cmd → Dispenser → Option (Cmd × Dispenser)
  | 0, c, d =>
    match d.NextBlock 0 with
    | (true, d1) => some (c, d1)
    | (false, _) => none
  | k + 1, c, d =>
    match d.NextBlock 0 with
    | (false, _) => none
    | (true, d1) =>
      match c.unmarshalField reg d1 with
      | ⟨c1, d2, none⟩ => Cmd.blockState reg k c1 d2
      | ⟨_, _, some _⟩ => none

/-- `e` is `d` read further: the same tokens, the cursor not moved back, and within the
tokens if it moved. -/
def Dispenser.Le (d e : Dispenser) : Prop :=
  e.tokens = d.tokens ∧ d.cursor ≤ e.cursor ∧ (d.cursor < e.cursor → e.cursor ≤ e.tokens.length)


/-! ## Concrete inputs -/

/-- A codec that keeps the aggregate as it is: lossless. -/
def plainCodec : Codec App := { encode := id, decode := .ok }

/-- A codec whose decoding always fails. -/
def brokenCodec : Codec String :=
  { encode := fun _ => "", decode := fun _ => .error "unexpected end of JSON input" }

/-- A fresh dispenser over a directive written on several lines. -/
def decl (lines : List (List String)) : Dispenser := NewDispenser (linesTokens lines)

/-- A registered writer module: it reads its segment and has the writer-opener capability. -/
def fileWriterModule : ModuleInfo :=
  { typeName := "*logging.FileWriter",
    unmarshaler := some (fun segment =>
      .ok { typeName := "*logging.FileWriter", isWriterOpener := true,
            config := " ".intercalate (segment.map (fun t => t.text)) }) }

/-- A registered module that reads its segment but has no writer-opener capability. -/
def encoderModule : ModuleInfo :=
  { typeName := "*logging.JSONEncoder",
    unmarshaler := some (fun _ =>
      .ok { typeName := "*logging.JSONEncoder", isWriterOpener := false, config := "" }) }

/-- A registry with the two modules `file` and `json` under the writers namespace. -/
def sampleModules : Registry := fun id =>
  if id = "caddy.logging.writers.file" then some fileWriterModule
  else if id = "caddy.logging.writers.json" then some encoderModule
  else none

/-- The keywords that the `switch` of `Cmd.unmarshalBlock` has a case for. -/
def blockKeywords : List String :=
  ["command", "args", "directory", "foreground", "startup", "shutdown", "timeout", "log",
    "err_log"]

/-- The sink named after `log` or `err_log` resolves: a name follows on the line, and it is
one of the reserved names or the registry lookup of `caddy.logging.writers.<name>` yields a
value with the writer-opener capability. Stated on the tokens and the registry. -/
def Dispenser.sinkResolves (reg : Registry) (d : Dispenser) : Bool :=
  match d.NextArg with
  | (false, _) => false
  | (true, d1) =>
    d1.Val == "stdout" || d1.Val == "stderr" || d1.Val == "discard"
      || (match (UnmarshalModule reg d1 ("caddy.logging.writers." ++ d1.Val)).1 with
          | .ok unm => unm.isWriterOpener
          | .error _ => false)

/-- A valid block field other than `command`, following the grammar of the block: `args`
while args is still empty; `directory` or `timeout` followed by an argument; `foreground`,
`startup`, `shutdown`; `log` or `err_log` followed by a sink name that resolves. Stated on
the keyword under the cursor, the tokens, the registry and the args read so far, not on what
the parser returns. -/
def Cmd.validField (reg : Registry) (c : Cmd) (d : Dispenser) : Bool :=
  (d.Val == "args" && c.Args.isEmpty)
    || ((d.Val == "directory" || d.Val == "timeout") && d.NextArg.1)
    || d.Val == "foreground" || d.Val == "startup" || d.Val == "shutdown"
    || ((d.Val == "log" || d.Val == "err_log") && d.sinkResolves reg)

/-! ## Reading never moves back, and the loops are given enough rounds -/

theorem Dispenser.Le.refl (d : Dispenser) : d.Le d := ⟨rfl, le_refl _, fun h => absurd h (lt_irrefl _)⟩

theorem Dispenser.Le.trans {d e f : Dispenser} (h1 : d.Le e) (h2 : e.Le f) : d.Le f := by
  obtain ⟨a1, b1, c1⟩ := h1
  obtain ⟨a2, b2, c2⟩ := h2
  refine ⟨a2.trans a1, le_trans b1 b2, fun h => ?_⟩
  by_cases h3 : e.cursor < f.cursor
  · exact c2 h3
  · have h4 : e.cursor = f.cursor := le_antisymm b2 (not_lt.1 h3)
    have h5 := c1 (by omega)
    rw [a2]; omega

theorem Dispenser.Le.rounds_le {d e : Dispenser} (h : d.Le e) : e.rounds ≤ d.rounds := by
  obtain ⟨a, b, _⟩ := h
  unfold Dispenser.rounds
  rw [a]; omega

theorem Dispenser.Le.rounds_lt {d e : Dispenser} (h : d.Le e) (hlt : d.cursor < e.cursor) :
    e.rounds < d.rounds := by
  obtain ⟨a, b, c⟩ := h
  have := c hlt
  unfold Dispenser.rounds
  rw [a] at *; omega

theorem nextOnSameLine_spec (d : Dispenser) :
    (d.nextOnSameLine = (true, { d with cursor := d.cursor + 1 })
      ∧ d.cursor + 1 ≤ d.tokens.length)
    ∨ d.nextOnSameLine = (false, d) := by
  unfold Dispenser.nextOnSameLine
  split
  · left; refine ⟨rfl, ?_⟩; omega
  · split
    · rename_i next hn
      split
      · right; rfl
      · left; refine ⟨rfl, ?_⟩
        obtain ⟨hlt, _⟩ := List.get?_eq_some.1 hn
        omega
    · right; rfl

theorem Next_spec (d : Dispenser) :
    (d.Next = (true, { d with cursor := d.cursor + 1 }) ∧ d.cursor + 1 ≤ d.tokens.length)
    ∨ d.Next = (false, d) := by
  unfold Dispenser.Next
  split
  · left; refine ⟨rfl, ?_⟩; omega
  · right; rfl

theorem NextArg_spec (d : Dispenser) :
    (d.NextArg = (true, { d with cursor := d.cursor + 1 }) ∧ d.cursor + 1 ≤ d.tokens.length)
    ∨ d.NextArg = (false, d) := by
  unfold Dispenser.NextArg
  rcases nextOnSameLine_spec d with ⟨h, hb⟩ | h
  · rw [h]
    simp only
    split
    · right
      cases d
      simp
    · left; exact ⟨rfl, hb⟩
  · rw [h]; right; rfl

theorem le_advance (d : Dispenser) (h : d.cursor + 1 ≤ d.tokens.length) :
    d.Le { d with cursor := d.cursor + 1 } :=
  ⟨rfl, by simp, fun _ => h⟩

theorem nextOnSameLine_le (d : Dispenser) : d.Le d.nextOnSameLine.2 := by
  rcases nextOnSameLine_spec d with ⟨h, hb⟩ | h <;> rw [h]
  · exact le_advance d hb
  · exact Dispenser.Le.refl d

theorem Next_le (d : Dispenser) : d.Le d.Next.2 := by
  rcases Next_spec d with ⟨h, hb⟩ | h <;> rw [h]
  · exact le_advance d hb
  · exact Dispenser.Le.refl d

theorem NextArg_le (d : Dispenser) : d.Le d.NextArg.2 := by
  rcases NextArg_spec d with ⟨h, hb⟩ | h <;> rw [h]
  · exact le_advance d hb
  · exact Dispenser.Le.refl d

theorem RemainingArgsLoop_le (fuel : Nat) (d : Dispenser) (acc : List String) :
    d.Le (Dispenser.RemainingArgsLoop fuel d acc).2 := by
  induction fuel generalizing d acc with
  | zero => exact Dispenser.Le.refl d
  | succ n ih =>
    unfold Dispenser.RemainingArgsLoop
    have h := NextArg_le d
    split
    · rename_i d1 heq
      rw [heq] at h; exact h
    · rename_i d1 heq
      rw [heq] at h
      exact h.trans (ih d1 _)

theorem RemainingArgs_le (d : Dispenser) : d.Le d.RemainingArgs.2 :=
  RemainingArgsLoop_le _ d []

theorem Args1_le (d : Dispenser) : d.Le d.Args1.2 := by
  unfold Dispenser.Args1
  have h := NextArg_le d
  split <;> rename_i d1 heq <;> rw [heq] at h <;> exact h

theorem Dispenser.Le.setNesting {d e : Dispenser} (h : d.Le e) (k : Int) :
    d.Le { e with nesting := k } := h

/-- What `NextBlock` does to the cursor: it never moves back, and moves forward when the
call returns true. -/
theorem NextBlock_spec (d : Dispenser) (n : Int) :
    d.Le (d.NextBlock n).2 ∧ ((d.NextBlock n).1 = true → d.cursor < (d.NextBlock n).2.cursor) := by
  unfold Dispenser.NextBlock
  split
  · -- inside the block
    rcases Next_spec d with ⟨h, hb⟩ | h
    · rw [h]
      simp only
      have h0 : d.Le { d with cursor := d.cursor + 1 } := le_advance d hb
      generalize hd1 : ({ d with cursor := d.cursor + 1 } : Dispenser) = d1 at h0 ⊢
      have hc : d.cursor < d1.cursor := by rw [← hd1]; simp
      -- first test
      have hr1 : ∀ r1 : Bool × Dispenser,
          r1 = (if d1.Val = "\x7d" then
            match d1.nextOnSameLine with
            | (s, d2) => (!s, d2) else (false, d1)) → d1.Le r1.2 := by
        intro r1 hr
        rw [hr]
        split
        · exact nextOnSameLine_le d1
        · exact Dispenser.Le.refl d1
      generalize hr1e : (if d1.Val = "\x7d" then
            match d1.nextOnSameLine with
            | (s, d2) => (!s, d2) else (false, d1)) = r1
      have h1 := hr1 r1 hr1e.symm
      have hr2 : ∀ r2 : Bool × Dispenser,
          r2 = (if r1.2.Val = "\x7b" then
            match r1.2.nextOnSameLine with
            | (s, d2) => (!s, d2) else (false, r1.2)) → r1.2.Le r2.2 := by
        intro r2 hr
        rw [hr]
        split
        · exact nextOnSameLine_le r1.2
        · exact Dispenser.Le.refl r1.2
      generalize hr2e : (if r1.2.Val = "\x7b" then
            match r1.2.nextOnSameLine with
            | (s, d2) => (!s, d2) else (false, r1.2)) = r2
      have h2 := hr2 r2 hr2e.symm
      have l1 : d.Le r1.2 := h0.trans h1
      have l2 : d.Le r2.2 := l1.trans h2
      split
      · exact ⟨l1.setNesting _, fun _ => lt_of_lt_of_le hc h1.2.1⟩
      · split
        · exact ⟨l2.setNesting _, fun _ => lt_of_lt_of_le hc (le_trans h1.2.1 h2.2.1)⟩
        · exact ⟨l2, fun _ => lt_of_lt_of_le hc (le_trans h1.2.1 h2.2.1)⟩
    · rw [h]
      exact ⟨Dispenser.Le.refl d, fun hf => by simp at hf⟩
  · -- the block is not open yet
    rcases nextOnSameLine_spec d with ⟨h, hb⟩ | h
    · rw [h]
      simp only
      have h0 : d.Le { d with cursor := d.cursor + 1 } := le_advance d hb
      split
      · refine ⟨?_, fun hf => by simp at hf⟩
        cases d
        simp [Dispenser.Le]
      · have h1 := Next_le ({ d with cursor := d.cursor + 1 } : Dispenser)
        have l1 := h0.trans h1
        have hc : d.cursor < (Dispenser.Next { d with cursor := d.cursor + 1 }).2.cursor :=
          lt_of_lt_of_le (by simp) h1.2.1
        split
        · exact ⟨l1, fun hf => by simp at hf⟩
        · exact ⟨l1.setNesting _, fun _ => hc⟩
    · rw [h]
      exact ⟨Dispenser.Le.refl d, fun hf => by simp at hf⟩

theorem NextBlock_le (d : Dispenser) (n : Int) : d.Le (d.NextBlock n).2 := (NextBlock_spec d n).1

theorem segmentArgsLoop_le (fuel : Nat) (d : Dispenser) (acc : List Token) :
    d.Le (Dispenser.segmentArgsLoop fuel d acc).2 := by
  induction fuel generalizing d acc with
  | zero => exact Dispenser.Le.refl d
  | succ n ih =>
    unfold Dispenser.segmentArgsLoop
    have h := NextArg_le d
    split
    · rename_i d1 heq
      rw [heq] at h; exact h
    · rename_i d1 heq
      rw [heq] at h
      exact h.trans (ih d1 _)

theorem segmentBlockLoop_le (k : Int) (fuel : Nat) (d : Dispenser) (opened : Bool)
    (acc : List Token) : d.Le (Dispenser.segmentBlockLoop k fuel d opened acc).2.2 := by
  induction fuel generalizing d opened acc with
  | zero => exact Dispenser.Le.refl d
  | succ n ih =>
    unfold Dispenser.segmentBlockLoop
    have h := NextBlock_le d k
    split
    · rename_i d1 heq
      rw [heq] at h; exact h
    · rename_i d1 heq
      rw [heq] at h
      exact h.trans (ih d1 _ _)

theorem NextSegment_le (d : Dispenser) : d.Le d.NextSegment.2 := by
  unfold Dispenser.NextSegment
  have h1 := segmentArgsLoop_le d.rounds d d.Token?.toList
  generalize Dispenser.segmentArgsLoop d.rounds d d.Token?.toList = r1 at h1
  obtain ⟨tkns, d1⟩ := r1
  simp only at h1 ⊢
  have h2 := segmentBlockLoop_le d1.nesting d1.rounds d1 false tkns
  generalize Dispenser.segmentBlockLoop d1.nesting d1.rounds d1 false tkns = r2 at h2 ⊢
  obtain ⟨opened, tkns1, d2⟩ := r2
  exact h1.trans h2

theorem UnmarshalModule_le (reg : Registry) (d : Dispenser) (moduleID : String) :
    d.Le (UnmarshalModule reg d moduleID).2 := by
  unfold UnmarshalModule
  split
  · exact Dispenser.Le.refl d
  · split
    · exact Dispenser.Le.refl d
    · have h := NextSegment_le d
      generalize d.NextSegment = r at h
      obtain ⟨segment, d1⟩ := r
      simp only
      split <;> exact h

theorem UnmarshalModule_err (reg : Registry) (d : Dispenser) (moduleID : String)
    (e : ParseError) (h : (UnmarshalModule reg d moduleID).1 = .error e) : e ≠ .fuel := by
  unfold UnmarshalModule at h
  split at h
  · simp at h; rw [← h]; simp
  · split at h
    · simp at h; rw [← h]; simp
    · generalize d.NextSegment = r at h
      obtain ⟨segment, d1⟩ := r
      simp only at h
      split at h
      · simp at h; rw [← h]; simp
      · simp at h

theorem unmarshalLog_le (reg : Registry) (c : Cmd) (d : Dispenser) :
    d.Le (c.unmarshalLog reg d).2 := by
  unfold Cmd.unmarshalLog
  have h := NextArg_le d
  generalize d.NextArg = r at h
  obtain ⟨b, d1⟩ := r
  cases b
  · exact h
  · simp only
    split
    · exact h
    · exact h
    · exact h
    · have h2 := UnmarshalModule_le reg d1 ("caddy.logging.writers." ++ d1.Val)
      generalize UnmarshalModule reg d1 ("caddy.logging.writers." ++ d1.Val) = r2 at h2
      obtain ⟨x, d2⟩ := r2
      cases x
      · exact h.trans h2
      · simp only
        split <;> exact h.trans h2

theorem unmarshalLog_err (reg : Registry) (c : Cmd) (d : Dispenser) (e : ParseError)
    (h : (c.unmarshalLog reg d).1 = .error e) : e ≠ .fuel := by
  unfold Cmd.unmarshalLog at h
  generalize d.NextArg = r at h
  obtain ⟨b, d1⟩ := r
  cases b
  · simp at h; rw [← h]; simp
  · simp only at h
    split at h
    · simp at h
    · simp at h
    · simp at h
    · have h2 := UnmarshalModule_err reg d1 ("caddy.logging.writers." ++ d1.Val)
      generalize UnmarshalModule reg d1 ("caddy.logging.writers." ++ d1.Val) = r2 at h2 h
      obtain ⟨x, d2⟩ := r2
      cases x
      · simp at h; exact h2 e (by simp [h])
      · simp only at h
        split at h
        · simp at h
        · simp at h; rw [← h]; simp

theorem NextArg_rounds (d d1 : Dispenser) (h : d.NextArg = (true, d1)) :
    d1.rounds < d.rounds := by
  rcases NextArg_spec d with ⟨h1, hb⟩ | h1
  · rw [h1] at h
    simp only [Prod.mk.injEq, true_and] at h
    rw [← h]
    exact (le_advance d hb).rounds_lt (by simp)
  · rw [h1] at h; simp at h

/-- The loop of `RemainingArgs` is never cut off: more rounds than `rounds` change nothing. -/
theorem RemainingArgsLoop_stable (n m : Nat) (d : Dispenser) (acc : List String)
    (hn : d.rounds ≤ n) (hm : d.rounds ≤ m) :
    Dispenser.RemainingArgsLoop n d acc = Dispenser.RemainingArgsLoop m d acc := by
  induction n generalizing m d acc with
  | zero => unfold Dispenser.rounds at hn; omega
  | succ n ih =>
    cases m with
    | zero => unfold Dispenser.rounds at hm; omega
    | succ m =>
      rw [Dispenser.RemainingArgsLoop, Dispenser.RemainingArgsLoop]
      split
      · rfl
      · rename_i d1 heq
        have := NextArg_rounds d d1 heq
        exact ih m d1 _ (by omega) (by omega)

/-- The argument loop of `NextSegment` is never cut off. -/
theorem segmentArgsLoop_stable (n m : Nat) (d : Dispenser) (acc : List Token)
    (hn : d.rounds ≤ n) (hm : d.rounds ≤ m) :
    Dispenser.segmentArgsLoop n d acc = Dispenser.segmentArgsLoop m d acc := by
  induction n generalizing m d acc with
  | zero => unfold Dispenser.rounds at hn; omega
  | succ n ih =>
    cases m with
    | zero => unfold Dispenser.rounds at hm; omega
    | succ m =>
      rw [Dispenser.segmentArgsLoop, Dispenser.segmentArgsLoop]
      split
      · rfl
      · rename_i d1 heq
        have := NextArg_rounds d d1 heq
        exact ih m d1 _ (by omega) (by omega)

/-- The block loop of `NextSegment` is never cut off. -/
theorem segmentBlockLoop_stable (k : Int) (n m : Nat) (d : Dispenser) (opened : Bool)
    (acc : List Token) (hn : d.rounds ≤ n) (hm : d.rounds ≤ m) :
    Dispenser.segmentBlockLoop k n d opened acc = Dispenser.segmentBlockLoop k m d opened acc := by
  induction n generalizing m d opened acc with
  | zero => unfold Dispenser.rounds at hn; omega
  | succ n ih =>
    cases m with
    | zero => unfold Dispenser.rounds at hm; omega
    | succ m =>
      rw [Dispenser.segmentBlockLoop, Dispenser.segmentBlockLoop]
      split
      · rfl
      · rename_i d1 heq
        have hs := NextBlock_spec d k
        rw [heq] at hs
        have hlt : d1.rounds < d.rounds := hs.1.rounds_lt (hs.2 rfl)
        exact ih m d1 _ _ (by omega) (by omega)

theorem unmarshalField_le (reg : Registry) (c : Cmd) (d : Dispenser) :
    d.Le (c.unmarshalField reg d).disp := by
  unfold Cmd.unmarshalField
  have hA := Args1_le d
  have hR := RemainingArgs_le d
  have hL := unmarshalLog_le reg c d
  split
  · split
    · exact Dispenser.Le.refl d
    · generalize d.Args1 = r at hA
      obtain ⟨x, d1⟩ := r
      cases x
      · exact hA
      · simp only
        have h2 := RemainingArgs_le d1
        generalize d1.RemainingArgs = r2 at h2
        obtain ⟨args, d2⟩ := r2
        exact hA.trans h2
  · split
    · exact Dispenser.Le.refl d
    · generalize d.RemainingArgs = r at hR
      obtain ⟨args, d1⟩ := r
      exact hR
  · generalize d.Args1 = r at hA
    obtain ⟨x, d1⟩ := r
    cases x <;> exact hA
  · exact Dispenser.Le.refl d
  · exact Dispenser.Le.refl d
  · exact Dispenser.Le.refl d
  · generalize d.Args1 = r at hA
    obtain ⟨x, d1⟩ := r
    cases x <;> exact hA
  · generalize c.unmarshalLog reg d = r at hL
    obtain ⟨x, d1⟩ := r
    cases x <;> exact hL
  · generalize c.unmarshalLog reg d = r at hL
    obtain ⟨x, d1⟩ := r
    cases x <;> exact hL
  · exact Dispenser.Le.refl d

theorem unmarshalField_err (reg : Registry) (c : Cmd) (d : Dispenser) :
    (c.unmarshalField reg d).err ≠ some .fuel := by
  unfold Cmd.unmarshalField
  have hL := unmarshalLog_err reg c d
  split
  · split
    · simp
    · generalize d.Args1 = r
      obtain ⟨x, d1⟩ := r
      cases x
      · simp
      · simp only
        generalize d1.RemainingArgs = r2
        obtain ⟨args, d2⟩ := r2
        simp
  · split
    · simp
    · generalize d.RemainingArgs = r
      obtain ⟨args, d1⟩ := r
      simp
  · generalize d.Args1 = r
    obtain ⟨x, d1⟩ := r
    cases x <;> simp
  · simp
  · simp
  · simp
  · generalize d.Args1 = r
    obtain ⟨x, d1⟩ := r
    cases x <;> simp
  · generalize c.unmarshalLog reg d = r at hL
    obtain ⟨x, d1⟩ := r
    cases x
    · rename_i e
      simp only
      intro h
      exact hL e rfl (by simpa using h)
    · simp
  · generalize c.unmarshalLog reg d = r at hL
    obtain ⟨x, d1⟩ := r
    cases x
    · rename_i e
      simp only
      intro h
      exact hL e rfl (by simpa using h)
    · simp
  · simp

/-- One round of the loop of `unmarshalBlock`, written out. -/
theorem unmarshalBlockLoop_succ (reg : Registry) (fuel : Nat) (c : Cmd) (d : Dispenser) :
    Cmd.unmarshalBlockLoop reg (fuel + 1) c d =
      if (d.NextBlock 0).1 then
        if (c.unmarshalField reg (d.NextBlock 0).2).err = none then
          Cmd.unmarshalBlockLoop reg fuel (c.unmarshalField reg (d.NextBlock 0).2).cmd
            (c.unmarshalField reg (d.NextBlock 0).2).disp
        else c.unmarshalField reg (d.NextBlock 0).2
      else ⟨c, (d.NextBlock 0).2, none⟩ := by
  rw [Cmd.unmarshalBlockLoop]
  generalize d.NextBlock 0 = r
  obtain ⟨b, d1⟩ := r
  cases b
  · simp
  · simp only
    generalize c.unmarshalField reg d1 = o
    obtain ⟨c1, d2, e⟩ := o
    cases e <;> simp

/-- More rounds than `rounds` change nothing. -/
theorem unmarshalBlockLoop_stable (reg : Registry) (n m : Nat) (c : Cmd) (d : Dispenser)
    (hn : d.rounds ≤ n) (hm : d.rounds ≤ m) :
    Cmd.unmarshalBlockLoop reg n c d = Cmd.unmarshalBlockLoop reg m c d := by
  induction n generalizing m c d with
  | zero => unfold Dispenser.rounds at hn; omega
  | succ n ih =>
    cases m with
    | zero => unfold Dispenser.rounds at hm; omega
    | succ m =>
      rw [unmarshalBlockLoop_succ, unmarshalBlockLoop_succ]
      by_cases hb : (d.NextBlock 0).1 = true
      · rw [if_pos hb, if_pos hb]
        by_cases he : (c.unmarshalField reg (d.NextBlock 0).2).err = none
        · rw [if_pos he, if_pos he]
          have h1 := (NextBlock_spec d 0).1.rounds_lt ((NextBlock_spec d 0).2 hb)
          have h2 := (unmarshalField_le reg c (d.NextBlock 0).2).rounds_le
          exact ih m _ _ (by omega) (by omega)
        · rw [if_neg he, if_neg he]
      · rw [if_neg hb, if_neg hb]

/-- The loop of `unmarshalBlock` as a recursion on the dispenser: the rounds given to it are
always enough. -/
theorem unmarshalBlock_unfold (reg : Registry) (c : Cmd) (d : Dispenser) :
    c.unmarshalBlock reg d =
      if (d.NextBlock 0).1 then
        if (c.unmarshalField reg (d.NextBlock 0).2).err = none then
          (c.unmarshalField reg (d.NextBlock 0).2).cmd.unmarshalBlock reg
            (c.unmarshalField reg (d.NextBlock 0).2).disp
        else c.unmarshalField reg (d.NextBlock 0).2
      else ⟨c, (d.NextBlock 0).2, none⟩ := by
  have hr : d.rounds = (d.rounds - 1) + 1 := by unfold Dispenser.rounds; omega
  unfold Cmd.unmarshalBlock
  rw [hr, unmarshalBlockLoop_succ]
  by_cases hb : (d.NextBlock 0).1 = true
  · rw [if_pos hb, if_pos hb]
    by_cases he : (c.unmarshalField reg (d.NextBlock 0).2).err = none
    · rw [if_pos he, if_pos he]
      have h1 := (NextBlock_spec d 0).1.rounds_lt ((NextBlock_spec d 0).2 hb)
      have h2 := (unmarshalField_le reg c (d.NextBlock 0).2).rounds_le
      exact unmarshalBlockLoop_stable reg _ _ _ _ (by omega) (le_refl _)
    · rw [if_neg he, if_neg he]
  · rw [if_neg hb, if_neg hb]

/-- The loop of `unmarshalBlock` is never cut off. -/
theorem unmarshalBlockLoop_fuel (reg : Registry) (n : Nat) (c : Cmd) (d : Dispenser)
    (hn : d.rounds ≤ n) : (Cmd.unmarshalBlockLoop reg n c d).err ≠ some .fuel := by
  induction n generalizing c d with
  | zero => unfold Dispenser.rounds at hn; omega
  | succ n ih =>
    rw [unmarshalBlockLoop_succ]
    by_cases hb : (d.NextBlock 0).1 = true
    · rw [if_pos hb]
      by_cases he : (c.unmarshalField reg (d.NextBlock 0).2).err = none
      · rw [if_pos he]
        have h1 := (NextBlock_spec d 0).1.rounds_lt ((NextBlock_spec d 0).2 hb)
        have h2 := (unmarshalField_le reg c (d.NextBlock 0).2).rounds_le
        exact ih _ _ (by omega)
      · rw [if_neg he]
        exact unmarshalField_err reg c _
    · rw [if_neg hb]; simp

theorem unmarshalBlock_fuel (reg : Registry) (c : Cmd) (d : Dispenser) :
    (c.unmarshalBlock reg d).err ≠ some .fuel :=
  unmarshalBlockLoop_fuel reg _ c d (le_refl _)


/-! ## What one round of the loop does -/


/-- A failing round leaves the descriptor as it was. -/
theorem unmarshalField_err_cmd (reg : Registry) (c : Cmd) (d : Dispenser)
    (h : (c.unmarshalField reg d).err ≠ none) : (c.unmarshalField reg d).cmd = c := by
  revert h
  unfold Cmd.unmarshalField
  repeat' split
  all_goals simp_all

/-- Only the fields `command` and `args` write `Args`. -/
theorem unmarshalField_args (reg : Registry) (c : Cmd) (d : Dispenser)
    (h1 : d.Val ≠ "command") (h2 : d.Val ≠ "args") :
    (c.unmarshalField reg d).cmd.Args = c.Args := by
  revert h1 h2
  unfold Cmd.unmarshalField
  repeat' split
  all_goals simp_all

/-- Only the field `command` writes `Command`. -/
theorem unmarshalField_command (reg : Registry) (c : Cmd) (d : Dispenser)
    (h1 : d.Val ≠ "command") : (c.unmarshalField reg d).cmd.Command = c.Command := by
  revert h1
  unfold Cmd.unmarshalField
  repeat' split
  all_goals simp_all

theorem unmarshalField_command_twice (reg : Registry) (c : Cmd) (d : Dispenser)
    (h1 : d.Val = "command") (h2 : c.Command ≠ "") :
    c.unmarshalField reg d = ⟨c, d, some (.err "command specified twice")⟩ := by
  unfold Cmd.unmarshalField
  rw [h1]
  simp [h2]

theorem unmarshalField_args_twice (reg : Registry) (c : Cmd) (d : Dispenser)
    (h1 : d.Val = "args") (h2 : c.Args ≠ []) :
    c.unmarshalField reg d = ⟨c, d, some (.err "args specified twice")⟩ := by
  unfold Cmd.unmarshalField
  rw [h1]
  have : c.Args.length > 0 := List.length_pos.2 h2
  simp [this]

/-- What a round appends to the triggers. -/
theorem unmarshalField_at (reg : Registry) (c : Cmd) (d : Dispenser) :
    (c.unmarshalField reg d).cmd.At = c.At
    ∨ (d.Val = "startup" ∧ (c.unmarshalField reg d).cmd.At = c.At ++ ["startup"])
    ∨ (d.Val = "shutdown" ∧ (c.unmarshalField reg d).cmd.At = c.At ++ ["shutdown"]) := by
  unfold Cmd.unmarshalField
  repeat' split
  all_goals simp_all

theorem blockState_zero (reg : Registry) (c : Cmd) (d : Dispenser) :
    Cmd.blockState reg 0 c d = if (d.NextBlock 0).1 then some (c, (d.NextBlock 0).2) else none := by
  rw [Cmd.blockState]
  generalize d.NextBlock 0 = r
  obtain ⟨b, d1⟩ := r
  cases b <;> simp

theorem blockState_succ (reg : Registry) (k : Nat) (c : Cmd) (d : Dispenser) :
    Cmd.blockState reg (k + 1) c d =
      if (d.NextBlock 0).1 then
        if (c.unmarshalField reg (d.NextBlock 0).2).err = none then
          Cmd.blockState reg k (c.unmarshalField reg (d.NextBlock 0).2).cmd
            (c.unmarshalField reg (d.NextBlock 0).2).disp
        else none
      else none := by
  rw [Cmd.blockState]
  generalize d.NextBlock 0 = r
  obtain ⟨b, d1⟩ := r
  cases b
  · simp
  · simp only
    generalize c.unmarshalField reg d1 = o
    obtain ⟨c1, d2, e⟩ := o
    cases e <;> simp

/-- From the round observed by `blockState` the loop goes on as from a start. -/
theorem unmarshalBlock_of_blockState (reg : Registry) (k : Nat) (c : Cmd) (d : Dispenser)
    (ck : Cmd) (dk : Dispenser) (h : Cmd.blockState reg k c d = some (ck, dk)) :
    c.unmarshalBlock reg d =
      if (ck.unmarshalField reg dk).err = none then
        (ck.unmarshalField reg dk).cmd.unmarshalBlock reg (ck.unmarshalField reg dk).disp
      else ck.unmarshalField reg dk := by
  induction k generalizing c d with
  | zero =>
    rw [blockState_zero] at h
    rw [unmarshalBlock_unfold]
    by_cases hb : (d.NextBlock 0).1 = true
    · rw [if_pos hb] at h
      simp only [Option.some.injEq, Prod.mk.injEq] at h
      rw [if_pos hb, h.1, h.2]
    · rw [if_neg hb] at h; simp at h
  | succ k ih =>
    rw [blockState_succ] at h
    rw [unmarshalBlock_unfold]
    by_cases hb : (d.NextBlock 0).1 = true
    · rw [if_pos hb] at h
      by_cases he : (c.unmarshalField reg (d.NextBlock 0).2).err = none
      · rw [if_pos he] at h
        rw [if_pos hb, if_pos he]
        exact ih _ _ h
      · rw [if_neg he] at h; simp at h
    · rw [if_neg hb] at h; simp at h

/-- A property of the descriptor kept by every successful round holds at every round. -/
theorem blockState_inv (reg : Registry) (P : Cmd → Prop)
    (hP : ∀ c d, P c → (c.unmarshalField reg d).err = none → P (c.unmarshalField reg d).cmd)
    (k : Nat) (c : Cmd) (d : Dispenser) (ck : Cmd) (dk : Dispenser)
    (h : Cmd.blockState reg k c d = some (ck, dk)) (hc : P c) : P ck := by
  induction k generalizing c d with
  | zero =>
    rw [blockState_zero] at h
    by_cases hb : (d.NextBlock 0).1 = true
    · rw [if_pos hb] at h
      simp only [Option.some.injEq, Prod.mk.injEq] at h
      rw [← h.1]; exact hc
    · rw [if_neg hb] at h; simp at h
  | succ k ih =>
    rw [blockState_succ] at h
    by_cases hb : (d.NextBlock 0).1 = true
    · rw [if_pos hb] at h
      by_cases he : (c.unmarshalField reg (d.NextBlock 0).2).err = none
      · rw [if_pos he] at h
        exact ih _ _ h (hP _ _ hc he)
      · rw [if_neg he] at h; simp at h
    · rw [if_neg hb] at h; simp at h

/-- A property of the descriptor kept by every round holds when the loop ends, however it
ends. -/
theorem unmarshalBlockLoop_inv (reg : Registry) (P : Cmd → Prop)
    (hP : ∀ c d, P c → P (c.unmarshalField reg d).cmd)
    (fuel : Nat) (c : Cmd) (d : Dispenser) (hc : P c) :
    P (Cmd.unmarshalBlockLoop reg fuel c d).cmd := by
  induction fuel generalizing c d with
  | zero => exact hc
  | succ n ih =>
    rw [unmarshalBlockLoop_succ]
    by_cases hb : (d.NextBlock 0).1 = true
    · rw [if_pos hb]
      by_cases he : (c.unmarshalField reg (d.NextBlock 0).2).err = none
      · rw [if_pos he]
        exact ih _ _ (hP _ _ hc)
      · rw [if_neg he]
        exact hP _ _ hc
    · rw [if_neg hb]; exact hc

/-- Once the command is non-empty and args are non-empty, no round changes either. -/
theorem unmarshalField_both_set (reg : Registry) (c : Cmd) (d : Dispenser)
    (h1 : c.Command ≠ "") (h2 : c.Args ≠ []) :
    (c.unmarshalField reg d).cmd.Command = c.Command
      ∧ (c.unmarshalField reg d).cmd.Args = c.Args := by
  by_cases hc : d.Val = "command"
  · rw [unmarshalField_command_twice reg c d hc h1]; exact ⟨rfl, rfl⟩
  · by_cases ha : d.Val = "args"
    · rw [unmarshalField_args_twice reg c d ha h2]; exact ⟨rfl, rfl⟩
    · exact ⟨unmarshalField_command reg c d hc, unmarshalField_args reg c d hc ha⟩

/-- A non-empty command is never changed by a round. -/
theorem unmarshalField_command_set (reg : Registry) (c : Cmd) (d : Dispenser)
    (h1 : c.Command ≠ "") : (c.unmarshalField reg d).cmd.Command = c.Command := by
  by_cases hc : d.Val = "command"
  · rw [unmarshalField_command_twice reg c d hc h1]
  · exact unmarshalField_command reg c d hc

theorem UnmarshalCaddyfile_eq (reg : Registry) (c : Cmd) (d : Dispenser) :
    c.UnmarshalCaddyfile reg d = (c.unmarshalInline d).1.unmarshalBlock reg (c.unmarshalInline d).2 :=
  rfl


/-! ## The claims -/


/-- **C1** (the code departs from the claim). On `exec ls` with the block `bogus`, the
directive parser `Cmd.UnmarshalCaddyfile` fails with the unexpected-keyword error, yet
`newCommandFromDispenser` returns a nil error: `parseHandlerCaddyfileBlock` returns no error,
and `parseGlobalCaddyfileBlock` returns a payload in which the partially populated descriptor
has been appended. -/
theorem newCommandFromDispenser_discards_error :
    (Cmd.zero.UnmarshalCaddyfile noModules
        (decl [["exec", "ls", "\x7b"], ["bogus"], ["\x7d"]])).err
      = some (.err "'bogus' not expected")
    ∧ (newCommandFromDispenser noModules
        (decl [["exec", "ls", "\x7b"], ["bogus"], ["\x7d"]])).2 = none
    ∧ (parseHandlerCaddyfileBlock noModules
        (decl [["exec", "ls", "\x7b"], ["bogus"], ["\x7d"]])).2 = none
    ∧ parseGlobalCaddyfileBlock plainCodec noModules
        (decl [["exec", "ls", "\x7b"], ["bogus"], ["\x7d"]]) none
      = (some { Name := "exec",
                Value := { Commands := [{ Cmd.zero with Command := "ls", At := ["startup"] }] } },
         none) := by
  decide

/-- **C2** (the code departs from the claim). In `exec` with the block `args a b` /
`command ls`, the round that dispatches `command` starts with args `[a, b]`, the parse
succeeds, and args are empty at the end: the `command` case has replaced them without any
error. The sibling `args` case has the guard that the `command` case lacks: with `args c` in
place of `command ls` the parse fails with "args specified twice" and args stay `[a, b]`. -/
theorem command_field_replaces_args :
    (Cmd.blockState noModules 1 (Cmd.zero.unmarshalInline
        (decl [["exec", "\x7b"], ["args", "a", "b"], ["command", "ls"], ["\x7d"]])).1
      (Cmd.zero.unmarshalInline
        (decl [["exec", "\x7b"], ["args", "a", "b"], ["command", "ls"], ["\x7d"]])).2).map
        (fun s => (s.1.Args, s.2.Val)) = some (["a", "b"], "command")
    ∧ (Cmd.zero.UnmarshalCaddyfile noModules
        (decl [["exec", "\x7b"], ["args", "a", "b"], ["command", "ls"], ["\x7d"]])).err = none
    ∧ (Cmd.zero.UnmarshalCaddyfile noModules
        (decl [["exec", "\x7b"], ["args", "a", "b"], ["command", "ls"], ["\x7d"]])).cmd.Args = []
    ∧ (Cmd.zero.UnmarshalCaddyfile noModules
        (decl [["exec", "\x7b"], ["args", "a", "b"], ["command", "ls"], ["\x7d"]])).cmd.Command
      = "ls"
    ∧ (Cmd.zero.UnmarshalCaddyfile noModules
        (decl [["exec", "\x7b"], ["args", "a", "b"], ["args", "c"], ["\x7d"]])).err
      = some (.err "args specified twice")
    ∧ (Cmd.zero.UnmarshalCaddyfile noModules
        (decl [["exec", "\x7b"], ["args", "a", "b"], ["args", "c"], ["\x7d"]])).cmd.Args
      = ["a", "b"] := by
  decide

/-- Where args are kept. Once args is non-empty: a block field other than `command` either fails
or leaves args unchanged; and if the command is non-empty as well, `unmarshalBlock` as a whole
ends with the same command and the same args. A block field `command`, dispatched on a
descriptor whose command and args are both empty and followed by an argument, succeeds, takes
that argument as the command and the rest of its line as args. -/
theorem args_single_source (reg : Registry) (c : Cmd) (d : Dispenser) :
    (c.Args ≠ [] → d.Val ≠ "command" →
      (c.unmarshalField reg d).err ≠ none ∨ (c.unmarshalField reg d).cmd.Args = c.Args)
    ∧ (c.Args ≠ [] → c.Command ≠ "" →
      (c.unmarshalBlock reg d).cmd.Args = c.Args
        ∧ (c.unmarshalBlock reg d).cmd.Command = c.Command)
    ∧ (d.Val = "command" → c.Command = "" → c.Args = [] → ∀ v, d.Args1.1 = some v →
      c.unmarshalField reg d =
        ⟨{ c with Command := v, Args := d.Args1.2.RemainingArgs.1 },
          d.Args1.2.RemainingArgs.2, none⟩) := by
  refine ⟨?_, ?_, ?_⟩
  · intro hargs hkw
    by_cases ha : d.Val = "args"
    · left
      rw [unmarshalField_args_twice reg c d ha hargs]
      simp
    · right
      exact unmarshalField_args reg c d hkw ha
  · intro hargs hcmd
    have h := unmarshalBlockLoop_inv reg
      (fun x => x.Command = c.Command ∧ x.Args = c.Args)
      (fun x e hx => by
        have h1 : x.Command ≠ "" := by rw [hx.1]; exact hcmd
        have h2 : x.Args ≠ [] := by rw [hx.2]; exact hargs
        obtain ⟨p, q⟩ := unmarshalField_both_set reg x e h1 h2
        exact ⟨p.trans hx.1, q.trans hx.2⟩)
      d.rounds c d ⟨rfl, rfl⟩
    exact ⟨h.2, h.1⟩
  · intro hkw hcmd hargs v hv
    unfold Cmd.unmarshalField
    rw [hkw]
    generalize d.Args1 = r at hv
    obtain ⟨x, d1⟩ := r
    simp only at hv
    subst hv
    simp [hcmd]

/-- Use of `args_single_source`: `directory /tmp` leaves the args `[a]` as they are; the
block `foreground` leaves command `ls` and args `[a]`; and `command ls -l` on an empty
descriptor sets command `ls` and args `[-l]`. -/
theorem args_single_source_witness :
    (({ Cmd.zero with Args := ["a"] } : Cmd).unmarshalField noModules
        { tokens := linesTokens [["directory", "/tmp"]], cursor := 0, nesting := 1 }).cmd.Args
      = ["a"]
    ∧ (({ Cmd.zero with Command := "ls", Args := ["a"] } : Cmd).unmarshalBlock noModules
        { tokens := linesTokens [["exec", "ls", "a", "\x7b"], ["foreground"], ["\x7d"]],
          cursor := 2, nesting := 0 }).cmd.Args = ["a"]
    ∧ (Cmd.zero.unmarshalField noModules
        { tokens := linesTokens [["command", "ls", "-l"]], cursor := 0, nesting := 1 }).cmd
      = { Cmd.zero with Command := "ls", Args := ["-l"] } := by
  refine ⟨?_, ?_, ?_⟩
  · have h := (args_single_source noModules { Cmd.zero with Args := ["a"] }
      { tokens := linesTokens [["directory", "/tmp"]], cursor := 0, nesting := 1 }).1
      (by decide) (by decide)
    rcases h with h | h
    · exact absurd (by decide) h
    · exact h
  · exact ((args_single_source noModules { Cmd.zero with Command := "ls", Args := ["a"] }
      { tokens := linesTokens [["exec", "ls", "a", "\x7b"], ["foreground"], ["\x7d"]],
        cursor := 2, nesting := 0 }).2.1 (by decide) (by decide)).1
  · have h := (args_single_source noModules Cmd.zero
      { tokens := linesTokens [["command", "ls", "-l"]], cursor := 0, nesting := 1 }).2.2
      (by decide) (by decide) (by decide) "ls" (by decide)
    rw [h]
    decide

/-- An earlier round of the loop, and how the observed round is reached from it. -/
theorem blockState_earlier (reg : Registry) (j k : Nat) (c : Cmd) (d : Dispenser)
    (ck : Cmd) (dk : Dispenser) (h : Cmd.blockState reg k c d = some (ck, dk)) (hj : j < k)
    (cj : Cmd) (dj : Dispenser) (hs : Cmd.blockState reg j c d = some (cj, dj)) :
    (cj.unmarshalField reg dj).err = none
      ∧ Cmd.blockState reg (k - j - 1) (cj.unmarshalField reg dj).cmd
          (cj.unmarshalField reg dj).disp = some (ck, dk) := by
  induction j generalizing k c d with
  | zero =>
    obtain ⟨k, rfl⟩ : ∃ m, k = m + 1 := ⟨k - 1, by omega⟩
    rw [blockState_zero] at hs
    rw [blockState_succ] at h
    by_cases hb : (d.NextBlock 0).1 = true
    · rw [if_pos hb] at h hs
      simp only [Option.some.injEq, Prod.mk.injEq] at hs
      rw [hs.1, hs.2] at h
      by_cases he : (cj.unmarshalField reg dj).err = none
      · rw [if_pos he] at h
        exact ⟨he, by simpa using h⟩
      · rw [if_neg he] at h; simp at h
    · rw [if_neg hb] at hs; simp at hs
  | succ j ih =>
    obtain ⟨k, rfl⟩ : ∃ m, k = m + 1 := ⟨k - 1, by omega⟩
    rw [blockState_succ] at h hs
    by_cases hb : (d.NextBlock 0).1 = true
    · rw [if_pos hb] at h hs
      by_cases he : (c.unmarshalField reg (d.NextBlock 0).2).err = none
      · rw [if_pos he] at h hs
        have := ih k _ _ h (by omega) hs
        rw [show k + 1 - (j + 1) - 1 = k - j - 1 by omega]
        exact this
      · rw [if_neg he] at h; simp at h
    · rw [if_neg hb] at h; simp at h

/-- **C3** (the code departs from the claim). `exec "" a` with the block `command ls` /
`args x` has the inline argument `a` after the (empty) inline command and an `args` field
with one argument, and the parse succeeds, keeping only the block value `[x]`: the `command`
case has replaced the inline args `[a]` by `[]` without any error, so the guard of the `args`
case no longer sees them. Without the `command` field the same declaration fails with "args
specified twice". -/
theorem inline_args_dropped :
    (Cmd.zero.unmarshalInline
        (decl [["exec", "", "a", "\x7b"], ["command", "ls"], ["args", "x"], ["\x7d"]])).1.Args
      = ["a"]
    ∧ (Cmd.zero.UnmarshalCaddyfile noModules
        (decl [["exec", "", "a", "\x7b"], ["command", "ls"], ["args", "x"], ["\x7d"]])).err
      = none
    ∧ (Cmd.zero.UnmarshalCaddyfile noModules
        (decl [["exec", "", "a", "\x7b"], ["command", "ls"], ["args", "x"], ["\x7d"]])).cmd.Args
      = ["x"]
    ∧ (Cmd.blockState noModules 1 (Cmd.zero.unmarshalInline
        (decl [["exec", "", "a", "\x7b"], ["command", "ls"], ["args", "x"], ["\x7d"]])).1
      (Cmd.zero.unmarshalInline
        (decl [["exec", "", "a", "\x7b"], ["command", "ls"], ["args", "x"], ["\x7d"]])).2).map
        (fun s => (s.1.Args, s.2.Val)) = some ([], "args")
    ∧ (Cmd.zero.UnmarshalCaddyfile noModules
        (decl [["exec", "", "a", "\x7b"], ["args", "x"], ["\x7d"]])).err
      = some (.err "args specified twice") := by
  decide

/-- A property of the descriptor kept by every successful round on which `Q` holds, holds at
round `k` if `Q` holds on all rounds before it. -/
theorem blockState_inv_before (reg : Registry) (P : Cmd → Prop) (Q : Cmd × Dispenser → Prop)
    (step : ∀ c d, P c → Q (c, d) → (c.unmarshalField reg d).err = none →
      P (c.unmarshalField reg d).cmd)
    (k : Nat) (c : Cmd) (d : Dispenser) (ck : Cmd) (dk : Dispenser)
    (h : Cmd.blockState reg k c d = some (ck, dk))
    (hQ : ∀ j cj dj, j < k → Cmd.blockState reg j c d = some (cj, dj) → Q (cj, dj))
    (hc : P c) : P ck := by
  induction k generalizing c d with
  | zero =>
    rw [blockState_zero] at h
    by_cases hb : (d.NextBlock 0).1 = true
    · rw [if_pos hb] at h
      simp only [Option.some.injEq, Prod.mk.injEq] at h
      rw [← h.1]; exact hc
    · rw [if_neg hb] at h; simp at h
  | succ k ih =>
    rw [blockState_succ] at h
    by_cases hb : (d.NextBlock 0).1 = true
    · rw [if_pos hb] at h
      by_cases he : (c.unmarshalField reg (d.NextBlock 0).2).err = none
      · rw [if_pos he] at h
        have h0 := hQ 0 c (d.NextBlock 0).2 (by omega) (by rw [blockState_zero, if_pos hb])
        exact ih _ _ h (fun j cj dj hj hs => hQ (j + 1) cj dj (by omega) (by
          rw [blockState_succ, if_pos hb, if_pos he]; exact hs)) (step _ _ hc h0 he)
      · rw [if_neg he] at h; simp at h
    · rw [if_neg hb] at h; simp at h

/-- Where the duplicate check on args holds. Take a declaration whose inline part leaves at
least one argument, and suppose the inline command is non-empty or no round before round `k`
dispatches `command`. If round `k` of the block loop is reached and dispatches `args`, then
`Cmd.UnmarshalCaddyfile` fails there with "args specified twice", and the descriptor still
has the inline args. -/
theorem args_twice (reg : Registry) (c : Cmd) (d : Dispenser) (k : Nat) (ck : Cmd)
    (dk : Dispenser)
    (hargs : (c.unmarshalInline d).1.Args ≠ [])
    (hcmd : (c.unmarshalInline d).1.Command ≠ ""
      ∨ ∀ j cj dj, j < k →
          Cmd.blockState reg j (c.unmarshalInline d).1 (c.unmarshalInline d).2 = some (cj, dj) →
          dj.Val ≠ "command")
    (hk : Cmd.blockState reg k (c.unmarshalInline d).1 (c.unmarshalInline d).2 = some (ck, dk))
    (hval : dk.Val = "args") :
    c.UnmarshalCaddyfile reg d = ⟨ck, dk, some (.err "args specified twice")⟩
      ∧ ck.Args = (c.unmarshalInline d).1.Args := by
  have hinv : ck.Args = (c.unmarshalInline d).1.Args := by
    rcases hcmd with hcmd | hcmd
    · exact (blockState_inv reg
        (fun x => x.Command = (c.unmarshalInline d).1.Command
          ∧ x.Args = (c.unmarshalInline d).1.Args)
        (fun x e hx _ => by
          have h1 : x.Command ≠ "" := by rw [hx.1]; exact hcmd
          have h2 : x.Args ≠ [] := by rw [hx.2]; exact hargs
          obtain ⟨p, q⟩ := unmarshalField_both_set reg x e h1 h2
          exact ⟨p.trans hx.1, q.trans hx.2⟩)
        k _ _ ck dk hk ⟨rfl, rfl⟩).2
    · exact blockState_inv_before reg (fun x => x.Args = (c.unmarshalInline d).1.Args)
        (fun s => s.2.Val ≠ "command")
        (fun x e hx hq hok => by
          by_cases ha : e.Val = "args"
          · have h2 : x.Args ≠ [] := by rw [hx]; exact hargs
            rw [unmarshalField_args_twice reg x e ha h2] at hok
            simp at hok
          · exact (unmarshalField_args reg x e hq ha).trans hx)
        k _ _ ck dk hk hcmd rfl
  have hne : ck.Args ≠ [] := by rw [hinv]; exact hargs
  refine ⟨?_, hinv⟩
  rw [UnmarshalCaddyfile_eq, unmarshalBlock_of_blockState reg k _ _ ck dk hk,
    unmarshalField_args_twice reg ck dk hval hne]
  simp

/-- Use of `args_twice`: `exec ls -la` with the block `args x`, and `exec "" a` with the
block `args x`. -/
theorem args_twice_witness :
    ((Cmd.zero.UnmarshalCaddyfile noModules
        (decl [["exec", "ls", "-la", "\x7b"], ["args", "x"], ["\x7d"]])).err
      = some (.err "args specified twice")
    ∧ (Cmd.zero.UnmarshalCaddyfile noModules
        (decl [["exec", "ls", "-la", "\x7b"], ["args", "x"], ["\x7d"]])).cmd.Args = ["-la"])
    ∧ (Cmd.zero.UnmarshalCaddyfile noModules
        (decl [["exec", "", "a", "\x7b"], ["args", "x"], ["\x7d"]])).err
      = some (.err "args specified twice") := by
  have h := args_twice noModules Cmd.zero
    (decl [["exec", "ls", "-la", "\x7b"], ["args", "x"], ["\x7d"]]) 0
    { Cmd.zero with Command := "ls", Args := ["-la"] }
    { tokens := linesTokens [["exec", "ls", "-la", "\x7b"], ["args", "x"], ["\x7d"]],
      cursor := 4, nesting := 1 }
    (by decide) (Or.inl (by decide)) (by decide) (by decide)
  have h2 := args_twice noModules Cmd.zero
    (decl [["exec", "", "a", "\x7b"], ["args", "x"], ["\x7d"]]) 0
    { Cmd.zero with Args := ["a"] }
    { tokens := linesTokens [["exec", "", "a", "\x7b"], ["args", "x"], ["\x7d"]],
      cursor := 4, nesting := 1 }
    (by decide) (Or.inr (fun j _ _ hj => absurd hj (Nat.not_lt_zero j))) (by decide)
    (by decide)
  rw [h.1, h2.1]
  exact ⟨⟨rfl, rfl⟩, rfl⟩

/-- **C4**, the claim as stated fails: `exec ""` with the block `command ls` has an inline
command (the empty token, which the inline part reads) followed by a block `command` field,
and `exec` with the block `command ""` / `command ls` has two block `command` fields; both
parse without error and end with command `ls`. -/
theorem empty_command_set_again :
    (Cmd.zero.unmarshalInline (decl [["exec", "", "\x7b"], ["command", "ls"], ["\x7d"]])).2.cursor
      = 1
    ∧ (Cmd.zero.UnmarshalCaddyfile noModules
        (decl [["exec", "", "\x7b"], ["command", "ls"], ["\x7d"]])).err = none
    ∧ (Cmd.zero.UnmarshalCaddyfile noModules
        (decl [["exec", "", "\x7b"], ["command", "ls"], ["\x7d"]])).cmd.Command = "ls"
    ∧ (Cmd.zero.UnmarshalCaddyfile noModules
        (decl [["exec", "\x7b"], ["command", ""], ["command", "ls"], ["\x7d"]])).err = none
    ∧ (Cmd.zero.UnmarshalCaddyfile noModules
        (decl [["exec", "\x7b"], ["command", ""], ["command", "ls"], ["\x7d"]])).cmd.Command
      = "ls" := by
  decide

/-- **C4**, amended. If round `k` of the block loop is reached and dispatches `command` while
the command is already non-empty, then `Cmd.UnmarshalCaddyfile` fails there with "command
specified twice" and the descriptor is the one that round started with. Its command is the
first non-empty value: the inline command if that is non-empty, and the command left by any
earlier round that left a non-empty one. -/
theorem command_twice (reg : Registry) (c : Cmd) (d : Dispenser) (k : Nat) (ck : Cmd)
    (dk : Dispenser)
    (hk : Cmd.blockState reg k (c.unmarshalInline d).1 (c.unmarshalInline d).2 = some (ck, dk))
    (hval : dk.Val = "command") (hset : ck.Command ≠ "") :
    c.UnmarshalCaddyfile reg d = ⟨ck, dk, some (.err "command specified twice")⟩
      ∧ ((c.unmarshalInline d).1.Command ≠ "" → ck.Command = (c.unmarshalInline d).1.Command)
      ∧ (∀ j cj dj, j < k →
          Cmd.blockState reg j (c.unmarshalInline d).1 (c.unmarshalInline d).2 = some (cj, dj) →
          (cj.unmarshalField reg dj).cmd.Command ≠ "" →
          ck.Command = (cj.unmarshalField reg dj).cmd.Command) := by
  have keep : ∀ (v : String), v ≠ "" → ∀ (n : Nat) (x : Cmd) (e : Dispenser),
      Cmd.blockState reg n x e = some (ck, dk) → x.Command = v → ck.Command = v := by
    intro v hv n x e hn hx
    exact blockState_inv reg (fun y => y.Command = v)
      (fun y f hy _ => by
        have h1 : y.Command ≠ "" := by rw [hy]; exact hv
        exact (unmarshalField_command_set reg y f h1).trans hy)
      n x e ck dk hn hx
  refine ⟨?_, ?_, ?_⟩
  · rw [UnmarshalCaddyfile_eq, unmarshalBlock_of_blockState reg k _ _ ck dk hk,
      unmarshalField_command_twice reg ck dk hval hset]
    simp
  · intro h
    exact keep _ h k _ _ hk rfl
  · intro j cj dj hj hs hne
    obtain ⟨_, h2⟩ := blockState_earlier reg j k _ _ ck dk hk hj cj dj hs
    exact keep _ hne _ _ _ h2 rfl

/-- Witness for `command_twice`: `exec ls` with the block `command pwd`. -/
theorem command_twice_witness :
    Cmd.zero.UnmarshalCaddyfile noModules
        (decl [["exec", "ls", "\x7b"], ["command", "pwd"], ["\x7d"]])
      = ⟨{ Cmd.zero with Command := "ls" },
          { tokens := linesTokens [["exec", "ls", "\x7b"], ["command", "pwd"], ["\x7d"]],
            cursor := 3, nesting := 1 },
          some (.err "command specified twice")⟩ :=
  (command_twice noModules Cmd.zero
    (decl [["exec", "ls", "\x7b"], ["command", "pwd"], ["\x7d"]]) 0
    { Cmd.zero with Command := "ls" }
    { tokens := linesTokens [["exec", "ls", "\x7b"], ["command", "pwd"], ["\x7d"]],
      cursor := 3, nesting := 1 }
    (by decide) (by decide) (by decide)).1

/-- **C5**, the claim as stated fails: the block `startup` / `startup` / `startup`, parsed
from an empty trigger collection, succeeds with three entries, all equal. -/
theorem triggers_repeated :
    (Cmd.zero.unmarshalBlock noModules
        { tokens := linesTokens [["exec", "\x7b"], ["startup"], ["startup"], ["startup"], ["\x7d"]],
          cursor := 0, nesting := 0 }).err = none
    ∧ (Cmd.zero.unmarshalBlock noModules
        { tokens := linesTokens [["exec", "\x7b"], ["startup"], ["startup"], ["startup"], ["\x7d"]],
          cursor := 0, nesting := 0 }).cmd.At = ["startup", "startup", "startup"] := by
  decide

/-- **C5**, amended. For every block, `Cmd.unmarshalBlock` ends with the trigger collection
it started with followed by entries that are each `startup` or `shutdown`; starting from the
empty collection, every entry is one of the two. (Repeated keywords add repeated entries.) -/
theorem triggers_drawn (reg : Registry) (c : Cmd) (d : Dispenser) :
    ∃ extra : List String,
      (c.unmarshalBlock reg d).cmd.At = c.At ++ extra
        ∧ ∀ x ∈ extra, x = "startup" ∨ x = "shutdown" := by
  refine unmarshalBlockLoop_inv reg
    (fun y => ∃ extra : List String, y.At = c.At ++ extra
      ∧ ∀ x ∈ extra, x = "startup" ∨ x = "shutdown")
    (fun y e hy => ?_) d.rounds c d ⟨[], by simp, by simp⟩
  obtain ⟨extra, h1, h2⟩ := hy
  rcases unmarshalField_at reg y e with h | ⟨_, h⟩ | ⟨_, h⟩
  · exact ⟨extra, h.trans h1, h2⟩
  · refine ⟨extra ++ ["startup"], by rw [h, h1, List.append_assoc], fun x hx => ?_⟩
    rcases List.mem_append.1 hx with hx | hx
    · exact h2 x hx
    · left; simpa using hx
  · refine ⟨extra ++ ["shutdown"], by rw [h, h1, List.append_assoc], fun x hx => ?_⟩
    rcases List.mem_append.1 hx with hx | hx
    · exact h2 x hx
    · right; simpa using hx



theorem Val_mem (d : Dispenser) : d.Val = "" ∨ ∃ t ∈ d.tokens, t.text = d.Val := by
  unfold Dispenser.Val Dispenser.Token?
  split
  · rename_i t ht
    right
    split at ht
    · simp at ht
    · exact ⟨t, List.mem_iff_get?.2 ⟨_, ht⟩, rfl⟩
  · left; rfl

theorem unmarshalInline_le (c : Cmd) (d : Dispenser) : d.Le (c.unmarshalInline d).2 := by
  unfold Cmd.unmarshalInline
  have h1 := NextArg_le d
  generalize d.NextArg = r at h1
  obtain ⟨b, d1⟩ := r
  have h2 : d.Le (match (b, d1) with
      | (false, d1) => (false, d1)
      | (true, d1) => d1.NextArg).2 := by
    cases b
    · exact h1
    · exact h1.trans (NextArg_le d1)
  generalize (match (b, d1) with
      | (false, d1) => (false, d1)
      | (true, d1) => d1.NextArg) = r2 at h2
  simp only
  have h3 := RemainingArgs_le r2.2
  generalize r2.2.RemainingArgs = r3 at h3
  obtain ⟨args, d3⟩ := r3
  exact h2.trans h3

theorem unmarshalInline_at (c : Cmd) (d : Dispenser) : (c.unmarshalInline d).1.At = c.At := by
  unfold Cmd.unmarshalInline
  simp only
  repeat' split
  all_goals rfl

/-- If no round of the loop dispatches `startup` or `shutdown`, the triggers stay as they
were. -/
theorem unmarshalBlockLoop_at (reg : Registry) (fuel : Nat) (c : Cmd) (d : Dispenser)
    (h : ∀ k ck dk, Cmd.blockState reg k c d = some (ck, dk) →
      dk.Val ≠ "startup" ∧ dk.Val ≠ "shutdown") :
    (Cmd.unmarshalBlockLoop reg fuel c d).cmd.At = c.At := by
  induction fuel generalizing c d with
  | zero => rfl
  | succ n ih =>
    rw [unmarshalBlockLoop_succ]
    by_cases hb : (d.NextBlock 0).1 = true
    · rw [if_pos hb]
      have h0 := h 0 c (d.NextBlock 0).2 (by rw [blockState_zero, if_pos hb])
      have hat : (c.unmarshalField reg (d.NextBlock 0).2).cmd.At = c.At := by
        rcases unmarshalField_at reg c (d.NextBlock 0).2 with q | ⟨q, _⟩ | ⟨q, _⟩
        · exact q
        · exact absurd q h0.1
        · exact absurd q h0.2
      by_cases he : (c.unmarshalField reg (d.NextBlock 0).2).err = none
      · rw [if_pos he]
        rw [ih _ _ (fun k ck dk hk => h (k + 1) ck dk (by
          rw [blockState_succ, if_pos hb, if_pos he]; exact hk))]
        exact hat
      · rw [if_neg he]; exact hat
    · rw [if_neg hb]

/-- A round is dispatched on a token of the directive. -/
theorem blockState_le (reg : Registry) (k : Nat) (c : Cmd) (d : Dispenser) (ck : Cmd)
    (dk : Dispenser) (h : Cmd.blockState reg k c d = some (ck, dk)) : d.Le dk := by
  induction k generalizing c d with
  | zero =>
    rw [blockState_zero] at h
    by_cases hb : (d.NextBlock 0).1 = true
    · rw [if_pos hb] at h
      simp only [Option.some.injEq, Prod.mk.injEq] at h
      rw [← h.2]; exact NextBlock_le d 0
    · rw [if_neg hb] at h; simp at h
  | succ k ih =>
    rw [blockState_succ] at h
    by_cases hb : (d.NextBlock 0).1 = true
    · rw [if_pos hb] at h
      by_cases he : (c.unmarshalField reg (d.NextBlock 0).2).err = none
      · rw [if_pos he] at h
        exact ((NextBlock_le d 0).trans (unmarshalField_le reg c _)).trans (ih _ _ h)
      · rw [if_neg he] at h; simp at h
    · rw [if_neg hb] at h; simp at h

/-- **C7**. The directive parser never applies the default trigger: if no round of the block
loop dispatches `startup` or `shutdown` (in particular if no token of the declaration is one
of the two words), `Cmd.UnmarshalCaddyfile` leaves the trigger collection as it was, so a
fresh descriptor ends with none, and so does the descriptor in the `Middleware` returned by
`parseHandlerCaddyfileBlock`. -/
theorem parser_applies_no_default (reg : Registry) (d : Dispenser)
    (h : (∀ t ∈ d.tokens, t.text ≠ "startup" ∧ t.text ≠ "shutdown")
      ∨ ∀ k ck dk, Cmd.blockState reg k (Cmd.zero.unmarshalInline d).1
          (Cmd.zero.unmarshalInline d).2 = some (ck, dk) →
        dk.Val ≠ "startup" ∧ dk.Val ≠ "shutdown") :
    (Cmd.zero.UnmarshalCaddyfile reg d).cmd.At = []
      ∧ (parseHandlerCaddyfileBlock reg d).1.Cmd.At = [] := by
  have key : (Cmd.zero.UnmarshalCaddyfile reg d).cmd.At = [] := by
    have h' : ∀ k ck dk, Cmd.blockState reg k (Cmd.zero.unmarshalInline d).1
          (Cmd.zero.unmarshalInline d).2 = some (ck, dk) →
        dk.Val ≠ "startup" ∧ dk.Val ≠ "shutdown" := by
      rcases h with h | h
      · intro k ck dk hk
        have hle := (unmarshalInline_le Cmd.zero d).trans (blockState_le reg k _ _ ck dk hk)
        rcases Val_mem dk with hv | ⟨t, ht, hv⟩
        · rw [hv]; decide
        · rw [hle.1] at ht
          rw [← hv]; exact h t ht
      · exact h
    rw [UnmarshalCaddyfile_eq]
    unfold Cmd.unmarshalBlock
    rw [unmarshalBlockLoop_at reg _ _ _ h', unmarshalInline_at]
    rfl
  exact ⟨key, key⟩

/-- Witness for `parser_applies_no_default`: `exec ls -la` with the block `foreground`. -/
theorem parser_applies_no_default_witness :
    (Cmd.zero.UnmarshalCaddyfile noModules
        (decl [["exec", "ls", "-la", "\x7b"], ["foreground"], ["\x7d"]])).cmd.At = []
    ∧ (parseHandlerCaddyfileBlock noModules
        (decl [["exec", "ls", "-la", "\x7b"], ["foreground"], ["\x7d"]])).1.Cmd.At = [] :=
  parser_applies_no_default noModules
    (decl [["exec", "ls", "-la", "\x7b"], ["foreground"], ["\x7d"]]) (Or.inl (by decide))



/-- `parseGlobalCaddyfileBlock` once the previous value has been decoded. -/
theorem parseGlobal_of_decoded {V : Type} (codec : Codec V) (reg : Registry) (d : Dispenser)
    (prev : Option (Any V)) (P : App) (h : decodePrev codec prev = .ok P) :
    parseGlobalCaddyfileBlock codec reg d prev =
      (some { Name := "exec",
              Value := codec.encode { Commands := P.Commands ++ [globalDescriptor reg d] } },
        none) := by
  unfold parseGlobalCaddyfileBlock
  rw [h]
  rfl

theorem globalDescriptor_eq (reg : Registry) (d : Dispenser) :
    globalDescriptor reg d =
      { (newCommandFromDispenser reg d).1 with
        At := if (newCommandFromDispenser reg d).1.At = [] then ["startup"]
              else (newCommandFromDispenser reg d).1.At } := by
  unfold globalDescriptor
  simp only
  by_cases h : (newCommandFromDispenser reg d).1.At = []
  · simp [h]
  · have : (newCommandFromDispenser reg d).1.At.length ≠ 0 := by
      simpa [List.length_eq_zero] using h
    simp [h, this]

/-- **C6**. Whenever `parseGlobalCaddyfileBlock` accepts a declaration, the payload encodes
the previous aggregate followed by one descriptor, which is the parsed descriptor (the one
returned by `newCommandFromDispenser`) with triggers `[startup]` if the parsed triggers are
empty, and the parsed descriptor itself, triggers unchanged, if they are not. -/
theorem global_default_trigger {V : Type} (codec : Codec V) (reg : Registry) (d : Dispenser)
    (prev : Option (Any V)) (payload : HttpApp V)
    (h : parseGlobalCaddyfileBlock codec reg d prev = (some payload, none)) :
    ∃ (P : App) (appended : Cmd),
      decodePrev codec prev = .ok P
      ∧ payload.Value = codec.encode { Commands := P.Commands ++ [appended] }
      ∧ ((newCommandFromDispenser reg d).1.At = [] →
          appended = { (newCommandFromDispenser reg d).1 with At := ["startup"] })
      ∧ ((newCommandFromDispenser reg d).1.At ≠ [] →
          appended = (newCommandFromDispenser reg d).1) := by
  cases hdec : decodePrev codec prev with
  | error e =>
    unfold parseGlobalCaddyfileBlock at h
    rw [hdec] at h
    simp at h
  | ok P =>
    rw [parseGlobal_of_decoded codec reg d prev P hdec] at h
    simp only [Prod.mk.injEq, Option.some.injEq, and_true] at h
    refine ⟨P, globalDescriptor reg d, rfl, by rw [← h], ?_, ?_⟩
    · intro hat
      rw [globalDescriptor_eq, if_pos hat]
    · intro hat
      rw [globalDescriptor_eq, if_neg hat]

/-- Witness for `global_default_trigger`: `exec ls` (no trigger) after nothing, with the
lossless codec. -/
theorem global_default_trigger_witness :
    ∃ (P : App) (appended : Cmd),
      decodePrev plainCodec none = .ok P
      ∧ (⟨"exec", ⟨[{ Cmd.zero with Command := "ls", At := ["startup"] }]⟩⟩ : HttpApp App).Value
          = plainCodec.encode { Commands := P.Commands ++ [appended] }
      ∧ ((newCommandFromDispenser noModules (decl [["exec", "ls"]])).1.At = [] →
          appended = { (newCommandFromDispenser noModules (decl [["exec", "ls"]])).1 with
            At := ["startup"] })
      ∧ ((newCommandFromDispenser noModules (decl [["exec", "ls"]])).1.At ≠ [] →
          appended = (newCommandFromDispenser noModules (decl [["exec", "ls"]])).1) :=
  global_default_trigger plainCodec noModules (decl [["exec", "ls"]]) none _ (by decide)

/-- **C8**. For every previous aggregate `P` decoded from the supplied previous value,
`parseGlobalCaddyfileBlock` returns the payload named "exec" that encodes the command list of
`P` followed by exactly one new descriptor: the length is `|P| + 1`, every earlier entry is
at its position, and the new descriptor is last. -/
theorem global_appends_last {V : Type} (codec : Codec V) (reg : Registry) (d : Dispenser)
    (prev : Option (Any V)) (P : App) (h : decodePrev codec prev = .ok P) :
    ∃ (added : Cmd) (cmds : List Cmd),
      parseGlobalCaddyfileBlock codec reg d prev =
        (some { Name := "exec", Value := codec.encode { Commands := cmds } }, none)
      ∧ cmds = P.Commands ++ [added]
      ∧ cmds.length = P.Commands.length + 1
      ∧ (∀ i : Nat, i < P.Commands.length → cmds[i]? = P.Commands[i]?)
      ∧ cmds[P.Commands.length]? = some added
      ∧ cmds.getLast? = some added := by
  refine ⟨globalDescriptor reg d, P.Commands ++ [globalDescriptor reg d],
    parseGlobal_of_decoded codec reg d prev P h, rfl, by simp, ?_, by simp, by simp⟩
  intro i hi
  exact List.getElem?_append_left hi

/-- Witness for `global_appends_last`: `exec pwd` after an aggregate holding `ls`. -/
theorem global_appends_last_witness :
    ∃ (added : Cmd) (cmds : List Cmd),
      parseGlobalCaddyfileBlock plainCodec noModules (decl [["exec", "pwd"]])
          (some (.app ⟨"exec", ⟨[{ Cmd.zero with Command := "ls", At := ["startup"] }]⟩⟩)) =
        (some { Name := "exec", Value := plainCodec.encode { Commands := cmds } }, none)
      ∧ cmds = [{ Cmd.zero with Command := "ls", At := ["startup"] }] ++ [added]
      ∧ cmds.length = 1 + 1
      ∧ (∀ i : Nat, i < 1 → cmds[i]? = [{ Cmd.zero with Command := "ls", At := ["startup"] }][i]?)
      ∧ cmds[1]? = some added
      ∧ cmds.getLast? = some added :=
  global_appends_last plainCodec noModules (decl [["exec", "pwd"]])
    (some (.app ⟨"exec", ⟨[{ Cmd.zero with Command := "ls", At := ["startup"] }]⟩⟩))
    { Commands := [{ Cmd.zero with Command := "ls", At := ["startup"] }] } rfl

/-- `loadGlobal` from a decodable previous value, with a lossless codec. -/
theorem loadGlobal_from {V : Type} (codec : Codec V) (reg : Registry)
    (lossless : ∀ x, codec.decode (codec.encode x) = .ok x) (ds : List Dispenser)
    (prev : Option (Any V)) (P : App) (h : decodePrev codec prev = .ok P) :
    ∃ final, loadGlobal codec reg ds prev = (final, none)
      ∧ decodePrev codec final
          = .ok { Commands := P.Commands ++ ds.map (globalDescriptor reg) } := by
  induction ds generalizing prev P with
  | nil => exact ⟨prev, rfl, by simpa using h⟩
  | cons d ds ih =>
    rw [loadGlobal, parseGlobal_of_decoded codec reg d prev P h]
    simp only
    obtain ⟨final, h1, h2⟩ := ih
      (some (.app ⟨"exec", codec.encode { Commands := P.Commands ++ [globalDescriptor reg d] }⟩))
      { Commands := P.Commands ++ [globalDescriptor reg d] } (lossless _)
    exact ⟨final, h1, by simpa using h2⟩

/-- **C9**. With a lossless codec, threading `parseGlobalCaddyfileBlock` over any sequence of
declarations, from no previous value and each result handed on as the next previous value,
ends without error in a value that decodes to an aggregate with one entry per declaration,
in order: entry `i` is the descriptor parsed from declaration `i`, with triggers `[startup]`
if it has none. When no declaration sets a trigger, every entry has triggers `[startup]`. -/
theorem global_merge_in_order {V : Type} (codec : Codec V) (reg : Registry)
    (lossless : ∀ x, codec.decode (codec.encode x) = .ok x) (ds : List Dispenser) :
    ∃ (final : Option (Any V)) (agg : App),
      loadGlobal codec reg ds none = (final, none)
      ∧ decodePrev codec final = .ok agg
      ∧ agg.Commands.length = ds.length
      ∧ (∀ i : Nat, agg.Commands[i]? = ds[i]?.map (fun d =>
          { (newCommandFromDispenser reg d).1 with
            At := if (newCommandFromDispenser reg d).1.At = [] then ["startup"]
                  else (newCommandFromDispenser reg d).1.At }))
      ∧ ((∀ d ∈ ds, (newCommandFromDispenser reg d).1.At = []) →
          ∀ c ∈ agg.Commands, c.At = ["startup"]) := by
  obtain ⟨final, h1, h2⟩ := loadGlobal_from codec reg lossless ds none { Commands := [] } rfl
  refine ⟨final, { Commands := ds.map (globalDescriptor reg) }, h1, by simpa using h2,
    by simp, ?_, ?_⟩
  · intro i
    simp only [List.getElem?_map]
    cases ds[i]? with
    | none => rfl
    | some d => simp [globalDescriptor_eq]
  · intro hall c hc
    simp only [List.mem_map] at hc
    obtain ⟨d, hd, rfl⟩ := hc
    rw [globalDescriptor_eq, if_pos (hall d hd)]

/-- Witness for `global_merge_in_order`: `exec ls` then `exec pwd`, neither with a trigger,
give the aggregate `[ls at startup, pwd at startup]`. -/
theorem global_merge_in_order_witness :
    loadGlobal plainCodec noModules [decl [["exec", "ls"]], decl [["exec", "pwd"]]] none
      = (some (.app ⟨"exec", ⟨[{ Cmd.zero with Command := "ls", At := ["startup"] },
          { Cmd.zero with Command := "pwd", At := ["startup"] }]⟩⟩), none)
    ∧ ∃ (final : Option (Any App)) (agg : App),
      loadGlobal plainCodec noModules [decl [["exec", "ls"]], decl [["exec", "pwd"]]] none
        = (final, none)
      ∧ decodePrev plainCodec final = .ok agg
      ∧ agg.Commands.length = [decl [["exec", "ls"]], decl [["exec", "pwd"]]].length
      ∧ (∀ i : Nat, agg.Commands[i]? = [decl [["exec", "ls"]], decl [["exec", "pwd"]]][i]?.map
          (fun d => { (newCommandFromDispenser noModules d).1 with
            At := if (newCommandFromDispenser noModules d).1.At = [] then ["startup"]
                  else (newCommandFromDispenser noModules d).1.At }))
      ∧ ((∀ d ∈ [decl [["exec", "ls"]], decl [["exec", "pwd"]]],
            (newCommandFromDispenser noModules d).1.At = []) →
          ∀ c ∈ agg.Commands, c.At = ["startup"]) :=
  ⟨rfl, global_merge_in_order plainCodec noModules (fun _ => rfl)
    [decl [["exec", "ls"]], decl [["exec", "pwd"]]]⟩

/-- **C10**. When a previous `httpcaddyfile.App` value is supplied and decoding it fails,
`parseGlobalCaddyfileBlock` returns the internal error and no payload, whatever the current
declaration is: it is neither parsed nor appended. -/
theorem global_decode_failure {V : Type} (codec : Codec V) (reg : Registry) (d : Dispenser)
    (app : HttpApp V) (e : String) (h : codec.decode app.Value = .error e) :
    parseGlobalCaddyfileBlock codec reg d (some (.app app))
      = (none, some (.err ("internal error: " ++ e))) := by
  unfold parseGlobalCaddyfileBlock decodePrev
  simp only
  rw [h]

/-- Witness for `global_decode_failure`: a previous value that does not decode. -/
theorem global_decode_failure_witness :
    parseGlobalCaddyfileBlock brokenCodec noModules (decl [["exec", "ls"]])
        (some (.app { Name := "exec", Value := "" }))
      = (none, some (.err "internal error: unexpected end of JSON input")) :=
  global_decode_failure brokenCodec noModules (decl [["exec", "ls"]])
    { Name := "exec", Value := "" } "unexpected end of JSON input" rfl




/-- `UnmarshalModule` reads the registry at the given identifier only. -/
theorem UnmarshalModule_congr (reg reg' : Registry) (d : Dispenser) (moduleID : String)
    (h : reg' moduleID = reg moduleID) :
    UnmarshalModule reg' d moduleID = UnmarshalModule reg d moduleID := by
  unfold UnmarshalModule
  rw [h]

/-- `unmarshalLog` on a name that is not reserved, written out. -/
theorem unmarshalLog_other (reg : Registry) (c : Cmd) (d d1 : Dispenser)
    (hn : d.NextArg = (true, d1)) (h1 : d1.Val ≠ "stdout") (h2 : d1.Val ≠ "stderr")
    (h3 : d1.Val ≠ "discard") :
    c.unmarshalLog reg d =
      match UnmarshalModule reg d1 ("caddy.logging.writers." ++ d1.Val) with
      | (.error e, d2) => (.error e, d2)
      | (.ok unm, d2) =>
        if unm.isWriterOpener then
          (.ok (JSONModuleObject (.module unm) "output" d1.Val), d2)
        else
          (.error (.err ("module " ++ ("caddy.logging.writers." ++ d1.Val) ++ " ("
            ++ unm.typeName ++ ") is not a WriterOpener")), d2) := by
  unfold Cmd.unmarshalLog
  rw [hn]
  simp only

/-- **C11**. When the sink name read by `Cmd.unmarshalLog` is `stdout`, `stderr` or
`discard`, the call succeeds whatever the registry is, the dispenser stops on the name (one
token read, none beyond it), and the result is the encoding of the fixed built-in sink
(console-out, console-err, discard) tagged `output: <name>`. -/
theorem reserved_sinks (reg : Registry) (c : Cmd) (d d1 : Dispenser)
    (hn : d.NextArg = (true, d1)) :
    d1 = { d with cursor := d.cursor + 1 }
    ∧ (d1.Val = "stdout" →
        c.unmarshalLog reg d = (.ok (JSONModuleObject .StdoutWriter "output" "stdout"), d1))
    ∧ (d1.Val = "stderr" →
        c.unmarshalLog reg d = (.ok (JSONModuleObject .StderrWriter "output" "stderr"), d1))
    ∧ (d1.Val = "discard" →
        c.unmarshalLog reg d = (.ok (JSONModuleObject .DiscardWriter "output" "discard"), d1))
    ∧ (d1.Val = "stdout" ∨ d1.Val = "stderr" ∨ d1.Val = "discard" →
        ∀ reg' : Registry, c.unmarshalLog reg' d = c.unmarshalLog reg d) := by
  have hd : d1 = { d with cursor := d.cursor + 1 } := by
    rcases NextArg_spec d with ⟨h, _⟩ | h
    · rw [h] at hn; simp only [Prod.mk.injEq, true_and] at hn; exact hn.symm
    · rw [h] at hn; simp at hn
  have ha : ∀ r : Registry, d1.Val = "stdout" →
      c.unmarshalLog r d = (.ok (JSONModuleObject .StdoutWriter "output" "stdout"), d1) := by
    intro r hv
    unfold Cmd.unmarshalLog
    rw [hn]; simp only; rw [hv]; rfl
  have hb : ∀ r : Registry, d1.Val = "stderr" →
      c.unmarshalLog r d = (.ok (JSONModuleObject .StderrWriter "output" "stderr"), d1) := by
    intro r hv
    unfold Cmd.unmarshalLog
    rw [hn]; simp only; rw [hv]; rfl
  have hc : ∀ r : Registry, d1.Val = "discard" →
      c.unmarshalLog r d = (.ok (JSONModuleObject .DiscardWriter "output" "discard"), d1) := by
    intro r hv
    unfold Cmd.unmarshalLog
    rw [hn]; simp only; rw [hv]; rfl
  refine ⟨hd, ha reg, hb reg, hc reg, ?_⟩
  rintro (hv | hv | hv) reg'
  · rw [ha reg hv, ha reg' hv]
  · rw [hb reg hv, hb reg' hv]
  · rw [hc reg hv, hc reg' hv]

/-- Witness for `reserved_sinks`: `log stdout x` under a registry with modules: the name is
read, `x` is not. -/
theorem reserved_sinks_witness :
    Cmd.zero.unmarshalLog sampleModules
        { tokens := linesTokens [["log", "stdout", "x"]], cursor := 0, nesting := 1 }
      = (.ok { fieldName := "output", fieldVal := "stdout", val := .StdoutWriter },
          { tokens := linesTokens [["log", "stdout", "x"]], cursor := 1, nesting := 1 }) :=
  (reserved_sinks sampleModules Cmd.zero
    { tokens := linesTokens [["log", "stdout", "x"]], cursor := 0, nesting := 1 }
    { tokens := linesTokens [["log", "stdout", "x"]], cursor := 1, nesting := 1 }
    (by decide)).2.1 (by decide)

/-- **C12**. When the sink name `n` read by `Cmd.unmarshalLog` is none of `stdout`, `stderr`,
`discard`, the module registry is consulted at the identifier `caddy.logging.writers.` ++ `n`
and nowhere else; the call fails when that identifier is not registered, fails with the error
of the lookup when the lookup fails, fails with an error naming the identifier and the actual
type when the resolved value is no writer-opener, and succeeds exactly when the lookup yields
a writer-opener, with the result tagged `output: n`. -/
theorem sink_lookup (reg : Registry) (c : Cmd) (d d1 : Dispenser) (n : String)
    (hn : d.NextArg = (true, d1)) (hv : d1.Val = n)
    (h1 : n ≠ "stdout") (h2 : n ≠ "stderr") (h3 : n ≠ "discard") :
    (∀ reg' : Registry, reg' ("caddy.logging.writers." ++ n) = reg ("caddy.logging.writers." ++ n) →
        c.unmarshalLog reg' d = c.unmarshalLog reg d)
    ∧ (reg ("caddy.logging.writers." ++ n) = none → ∃ e, (c.unmarshalLog reg d).1 = .error e)
    ∧ (∀ e d2, UnmarshalModule reg d1 ("caddy.logging.writers." ++ n) = (.error e, d2) →
        c.unmarshalLog reg d = (.error e, d2))
    ∧ (∀ unm d2, UnmarshalModule reg d1 ("caddy.logging.writers." ++ n) = (.ok unm, d2) →
        unm.isWriterOpener = false →
        c.unmarshalLog reg d =
          (.error (.err ("module " ++ ("caddy.logging.writers." ++ n) ++ " (" ++ unm.typeName
            ++ ") is not a WriterOpener")), d2))
    ∧ (∀ unm d2, UnmarshalModule reg d1 ("caddy.logging.writers." ++ n) = (.ok unm, d2) →
        unm.isWriterOpener = true →
        c.unmarshalLog reg d = (.ok (JSONModuleObject (.module unm) "output" n), d2))
    ∧ (∀ raw, (c.unmarshalLog reg d).1 = .ok raw →
        ∃ unm d2, UnmarshalModule reg d1 ("caddy.logging.writers." ++ n) = (.ok unm, d2)
          ∧ unm.isWriterOpener = true
          ∧ raw = JSONModuleObject (.module unm) "output" n
          ∧ reg ("caddy.logging.writers." ++ n) ≠ none) := by
  subst hv
  have key := fun r => unmarshalLog_other r c d d1 hn h1 h2 h3
  have hnone : reg ("caddy.logging.writers." ++ d1.Val) = none →
      ∃ e, (UnmarshalModule reg d1 ("caddy.logging.writers." ++ d1.Val)).1 = .error e := by
    intro h
    unfold UnmarshalModule
    rw [h]
    exact ⟨_, rfl⟩
  refine ⟨?_, ?_, ?_, ?_, ?_, ?_⟩
  · intro reg' h
    rw [key reg', key reg, UnmarshalModule_congr reg reg' d1 _ h]
  · intro h
    obtain ⟨e, he⟩ := hnone h
    rw [key reg]
    generalize UnmarshalModule reg d1 ("caddy.logging.writers." ++ d1.Val) = r at he
    obtain ⟨x, d2⟩ := r
    simp only at he
    subst he
    exact ⟨e, rfl⟩
  · intro e d2 h
    rw [key reg, h]
  · intro unm d2 h hw
    rw [key reg, h]
    simp [hw]
  · intro unm d2 h hw
    rw [key reg, h]
    simp [hw]
  · intro raw h
    rw [key reg] at h
    have hreg : reg ("caddy.logging.writers." ++ d1.Val) ≠ none := by
      intro hr
      obtain ⟨e, he⟩ := hnone hr
      generalize UnmarshalModule reg d1 ("caddy.logging.writers." ++ d1.Val) = r at he h
      obtain ⟨x, d2⟩ := r
      simp only at he
      subst he
      simp at h
    generalize hr : UnmarshalModule reg d1 ("caddy.logging.writers." ++ d1.Val) = r at h
    obtain ⟨x, d2⟩ := r
    cases x with
    | error e => simp at h
    | ok unm =>
      simp only at h
      by_cases hw : unm.isWriterOpener = true
      · rw [if_pos hw] at h
        simp only [Except.ok.injEq] at h
        exact ⟨unm, d2, rfl, hw, h.symm, hreg⟩
      · rw [if_neg hw] at h
        simp at h

/-- Witness for `sink_lookup`: under the sample registry, `log file /var/log/x` resolves
`caddy.logging.writers.file` and is tagged `file`; `log json` resolves a module that is no
writer-opener; `log foo` is not registered. -/
theorem sink_lookup_witness :
    Cmd.zero.unmarshalLog sampleModules
        { tokens := linesTokens [["log", "file", "/var/log/x"]], cursor := 0, nesting := 1 }
      = (.ok { fieldName := "output", fieldVal := "file",
               val := .module { typeName := "*logging.FileWriter", isWriterOpener := true,
                                config := "file /var/log/x" } },
          { tokens := linesTokens [["log", "file", "/var/log/x"]], cursor := 2, nesting := 1 })
    ∧ Cmd.zero.unmarshalLog sampleModules
        { tokens := linesTokens [["log", "json"]], cursor := 0, nesting := 1 }
      = (.error (.err
          "module caddy.logging.writers.json (*logging.JSONEncoder) is not a WriterOpener"),
          { tokens := linesTokens [["log", "json"]], cursor := 1, nesting := 1 })
    ∧ ∃ e, (Cmd.zero.unmarshalLog sampleModules
        { tokens := linesTokens [["log", "foo"]], cursor := 0, nesting := 1 }).1 = .error e := by
  refine ⟨?_, ?_, ?_⟩
  · exact (sink_lookup sampleModules Cmd.zero
      { tokens := linesTokens [["log", "file", "/var/log/x"]], cursor := 0, nesting := 1 }
      { tokens := linesTokens [["log", "file", "/var/log/x"]], cursor := 1, nesting := 1 }
      "file" (by decide) (by decide) (by decide) (by decide) (by decide)).2.2.2.2.1
      { typeName := "*logging.FileWriter", isWriterOpener := true, config := "file /var/log/x" }
      { tokens := linesTokens [["log", "file", "/var/log/x"]], cursor := 2, nesting := 1 }
      rfl rfl
  · exact (sink_lookup sampleModules Cmd.zero
      { tokens := linesTokens [["log", "json"]], cursor := 0, nesting := 1 }
      { tokens := linesTokens [["log", "json"]], cursor := 1, nesting := 1 }
      "json" (by decide) (by decide) (by decide) (by decide) (by decide)).2.2.2.1
      { typeName := "*logging.JSONEncoder", isWriterOpener := false, config := "" }
      { tokens := linesTokens [["log", "json"]], cursor := 1, nesting := 1 }
      rfl rfl
  · exact (sink_lookup sampleModules Cmd.zero
      { tokens := linesTokens [["log", "foo"]], cursor := 0, nesting := 1 }
      { tokens := linesTokens [["log", "foo"]], cursor := 1, nesting := 1 }
      "foo" (by decide) (by decide) (by decide) (by decide) (by decide)).2.1 rfl



/-- The `default` case of the `switch`. -/
theorem unmarshalField_unknown (reg : Registry) (c : Cmd) (d : Dispenser)
    (h : d.Val ∉ blockKeywords) :
    c.unmarshalField reg d = ⟨c, d, some (.err ("'" ++ d.Val ++ "' not expected"))⟩ := by
  simp only [blockKeywords, List.mem_cons, List.mem_singleton, not_or, List.not_mem_nil,
    or_false] at h
  unfold Cmd.unmarshalField
  split
  all_goals first
    | rfl
    | (rename_i hv; simp [hv] at h)

/-- **C14**. If a round of the block loop is reached whose keyword is none of `command`,
`args`, `directory`, `timeout`, `foreground`, `startup`, `shutdown`, `log`, `err_log`, then
`Cmd.unmarshalBlock` fails with the error message naming that keyword; the descriptor is the
one that round started with and the dispenser still stands on the keyword, so no later field
is processed. -/
theorem unknown_keyword (reg : Registry) (c : Cmd) (d : Dispenser) (k : Nat) (ck : Cmd)
    (dk : Dispenser) (hk : Cmd.blockState reg k c d = some (ck, dk))
    (hkw : dk.Val ∉ blockKeywords) :
    c.unmarshalBlock reg d = ⟨ck, dk, some (.err ("'" ++ dk.Val ++ "' not expected"))⟩ := by
  rw [unmarshalBlock_of_blockState reg k c d ck dk hk, unmarshalField_unknown reg ck dk hkw]
  simp

/-- Witness for `unknown_keyword`: in the block `foreground` / `bogus` / `startup` the parse
stops on `bogus`, and `startup` is not processed. -/
theorem unknown_keyword_witness :
    Cmd.zero.unmarshalBlock noModules
        { tokens := linesTokens [["exec", "\x7b"], ["foreground"], ["bogus"], ["startup"],
            ["\x7d"]],
          cursor := 0, nesting := 0 }
      = ⟨{ Cmd.zero with Foreground := true },
          { tokens := linesTokens [["exec", "\x7b"], ["foreground"], ["bogus"], ["startup"],
              ["\x7d"]],
            cursor := 3, nesting := 1 },
          some (.err "'bogus' not expected")⟩ :=
  unknown_keyword noModules Cmd.zero
    { tokens := linesTokens [["exec", "\x7b"], ["foreground"], ["bogus"], ["startup"],
        ["\x7d"]],
      cursor := 0, nesting := 0 } 1
    { Cmd.zero with Foreground := true }
    { tokens := linesTokens [["exec", "\x7b"], ["foreground"], ["bogus"], ["startup"],
        ["\x7d"]],
      cursor := 3, nesting := 1 }
    (by decide) (by decide)



/-- `NextArg` returning false leaves the dispenser where it was. -/
theorem NextArg_false (d : Dispenser) (h : d.NextArg.1 = false) : d.NextArg = (false, d) := by
  rcases NextArg_spec d with ⟨h1, _⟩ | h1
  · rw [h1] at h; simp at h
  · exact h1

theorem Args1_none (d : Dispenser) (h : d.NextArg.1 = false) : d.Args1 = (none, d) := by
  unfold Dispenser.Args1
  rw [NextArg_false d h]

theorem Args1_some (d d1 : Dispenser) (h : d.NextArg = (true, d1)) :
    d.Args1 = (some d1.Val, d1) := by
  unfold Dispenser.Args1
  rw [h]

theorem unmarshalLog_noarg (reg : Registry) (c : Cmd) (d : Dispenser)
    (h : d.NextArg.1 = false) : c.unmarshalLog reg d = (.error (.argErr d.Val), d) := by
  unfold Cmd.unmarshalLog
  rw [NextArg_false d h]

/-- A field that requires an argument, dispatched where no argument follows. -/
theorem unmarshalField_noarg (reg : Registry) (c : Cmd) (d : Dispenser)
    (h : d.NextArg.1 = false)
    (hkw : d.Val = "directory" ∨ d.Val = "timeout" ∨ d.Val = "log" ∨ d.Val = "err_log"
      ∨ (d.Val = "command" ∧ c.Command = "")) :
    c.unmarshalField reg d = ⟨c, d, some (.argErr d.Val)⟩ := by
  have hA := Args1_none d h
  have hL := unmarshalLog_noarg reg c d h
  unfold Cmd.unmarshalField
  rcases hkw with hv | hv | hv | hv | ⟨hv, hc⟩
  · rw [hv]; simp only; rw [hA]; simp [hv]
  · rw [hv]; simp only; rw [hA]; simp [hv]
  · rw [hv]; simp only; rw [hL]; simp [hv]
  · rw [hv]; simp only; rw [hL]; simp [hv]
  · rw [hv]; simp only; rw [hA]; simp [hc, hv]

theorem unmarshalField_directory (reg : Registry) (c : Cmd) (d d1 : Dispenser)
    (h : d.NextArg = (true, d1)) (hv : d.Val = "directory") :
    c.unmarshalField reg d = ⟨{ c with Directory := d1.Val }, d1, none⟩ := by
  unfold Cmd.unmarshalField
  rw [hv]; simp only; rw [Args1_some d d1 h]

theorem unmarshalField_timeout (reg : Registry) (c : Cmd) (d d1 : Dispenser)
    (h : d.NextArg = (true, d1)) (hv : d.Val = "timeout") :
    c.unmarshalField reg d = ⟨{ c with Timeout := d1.Val }, d1, none⟩ := by
  unfold Cmd.unmarshalField
  rw [hv]; simp only; rw [Args1_some d d1 h]

/-- **C15**, the claim as stated fails: in `exec ls` with the block `command`, the field
`command` is followed by no argument, and the parse fails with "command specified twice",
not with the argument-expected error. -/
theorem command_without_argument :
    ({ tokens := linesTokens [["exec", "ls", "\x7b"], ["command"], ["\x7d"]],
       cursor := 3, nesting := 1 } : Dispenser).NextArg.1 = false
    ∧ (Cmd.zero.UnmarshalCaddyfile noModules
        (decl [["exec", "ls", "\x7b"], ["command"], ["\x7d"]])).err
      = some (.err "command specified twice") := by
  decide

/-- **C15**, amended. Take a round of the block loop that is reached. If its keyword is
`directory`, `timeout`, `log` or `err_log`, or `command` while the command is still empty,
and no argument follows on the line, `Cmd.unmarshalBlock` fails there with the
argument-expected error. If the keyword is `directory` (resp. `timeout`) and an argument
follows, the field succeeds, reads that one argument, and stores its text in `Directory`
(resp. `Timeout`) as it is. -/
theorem required_argument (reg : Registry) (c : Cmd) (d : Dispenser) (k : Nat) (ck : Cmd)
    (dk : Dispenser) (hk : Cmd.blockState reg k c d = some (ck, dk)) :
    (dk.NextArg.1 = false →
      (dk.Val = "directory" ∨ dk.Val = "timeout" ∨ dk.Val = "log" ∨ dk.Val = "err_log"
        ∨ (dk.Val = "command" ∧ ck.Command = "")) →
      c.unmarshalBlock reg d = ⟨ck, dk, some (.argErr dk.Val)⟩)
    ∧ (dk.Val = "directory" → dk.NextArg.1 = true →
        ck.unmarshalField reg dk
          = ⟨{ ck with Directory := ({ dk with cursor := dk.cursor + 1 } : Dispenser).Val },
              { dk with cursor := dk.cursor + 1 }, none⟩)
    ∧ (dk.Val = "timeout" → dk.NextArg.1 = true →
        ck.unmarshalField reg dk
          = ⟨{ ck with Timeout := ({ dk with cursor := dk.cursor + 1 } : Dispenser).Val },
              { dk with cursor := dk.cursor + 1 }, none⟩) := by
  have adv : dk.NextArg.1 = true → dk.NextArg = (true, { dk with cursor := dk.cursor + 1 }) := by
    intro h
    rcases NextArg_spec dk with ⟨h1, _⟩ | h1
    · exact h1
    · rw [h1] at h; simp at h
  refine ⟨?_, ?_, ?_⟩
  · intro hno hkw
    rw [unmarshalBlock_of_blockState reg k c d ck dk hk, unmarshalField_noarg reg ck dk hno hkw]
    simp
  · intro hv ha
    exact unmarshalField_directory reg ck dk _ (adv ha) hv
  · intro hv ha
    exact unmarshalField_timeout reg ck dk _ (adv ha) hv

/-- Witness for `required_argument`: the block `timeout` alone fails with the
argument-expected error, and `directory /tmp` stores `/tmp`. -/
theorem required_argument_witness :
    Cmd.zero.unmarshalBlock noModules
        { tokens := linesTokens [["exec", "\x7b"], ["timeout"], ["\x7d"]],
          cursor := 0, nesting := 0 }
      = ⟨Cmd.zero,
          { tokens := linesTokens [["exec", "\x7b"], ["timeout"], ["\x7d"]],
            cursor := 2, nesting := 1 },
          some (.argErr "timeout")⟩
    ∧ (Cmd.zero.unmarshalField noModules
        { tokens := linesTokens [["exec", "\x7b"], ["directory", "/tmp"], ["\x7d"]],
          cursor := 2, nesting := 1 }).cmd.Directory = "/tmp" := by
  refine ⟨?_, ?_⟩
  · exact (required_argument noModules Cmd.zero
      { tokens := linesTokens [["exec", "\x7b"], ["timeout"], ["\x7d"]],
        cursor := 0, nesting := 0 } 0 Cmd.zero
      { tokens := linesTokens [["exec", "\x7b"], ["timeout"], ["\x7d"]],
        cursor := 2, nesting := 1 } (by decide)).1 (by decide) (by decide)
  · rw [(required_argument noModules Cmd.zero
      { tokens := linesTokens [["exec", "\x7b"], ["directory", "/tmp"], ["\x7d"]],
        cursor := 0, nesting := 0 } 0 Cmd.zero
      { tokens := linesTokens [["exec", "\x7b"], ["directory", "/tmp"], ["\x7d"]],
        cursor := 2, nesting := 1 } (by decide)).2.1 (by decide) (by decide)]
    decide

/-- **C17**. Given a non-nil previous value that is not an `httpcaddyfile.App`,
`parseGlobalCaddyfileBlock` raises no error and returns what it returns with no previous
value: the payload named "exec" whose aggregate holds the descriptor of the current
declaration and nothing else. -/
theorem other_previous_value_dropped {V : Type} (codec : Codec V) (reg : Registry)
    (d : Dispenser) (typeName : String) :
    parseGlobalCaddyfileBlock codec reg d (some (.other typeName))
      = parseGlobalCaddyfileBlock codec reg d none
    ∧ parseGlobalCaddyfileBlock codec reg d (some (.other typeName))
      = (some { Name := "exec",
                Value := codec.encode { Commands := [globalDescriptor reg d] } }, none)
    ∧ globalDescriptor reg d =
        { (newCommandFromDispenser reg d).1 with
          At := if (newCommandFromDispenser reg d).1.At = [] then ["startup"]
                else (newCommandFromDispenser reg d).1.At } :=
  ⟨rfl, parseGlobal_of_decoded codec reg d (some (.other typeName)) { Commands := [] } rfl,
    globalDescriptor_eq reg d⟩



theorem nextOnSameLine_nesting (d : Dispenser) : d.nextOnSameLine.2.nesting = d.nesting := by
  rcases nextOnSameLine_spec d with ⟨h, _⟩ | h <;> rw [h]

theorem Next_nesting (d : Dispenser) : d.Next.2.nesting = d.nesting := by
  rcases Next_spec d with ⟨h, _⟩ | h <;> rw [h]

theorem NextArg_nesting (d : Dispenser) : d.NextArg.2.nesting = d.nesting := by
  rcases NextArg_spec d with ⟨h, _⟩ | h <;> rw [h]

theorem RemainingArgsLoop_nesting (fuel : Nat) (d : Dispenser) (acc : List String) :
    (Dispenser.RemainingArgsLoop fuel d acc).2.nesting = d.nesting := by
  induction fuel generalizing d acc with
  | zero => rfl
  | succ n ih =>
    unfold Dispenser.RemainingArgsLoop
    have h := NextArg_nesting d
    split
    · rename_i d1 heq
      rw [heq] at h; exact h
    · rename_i d1 heq
      rw [heq] at h
      rw [ih d1 _]; exact h

theorem Args1_nesting (d : Dispenser) : d.Args1.2.nesting = d.nesting := by
  unfold Dispenser.Args1
  have h := NextArg_nesting d
  split <;> rename_i d1 heq <;> rw [heq] at h <;> exact h

/-- What `NextBlock` does to the nesting: from the level `n` or above it stays at `n` or
above, and it is above `n` when the call returns true. -/
theorem NextBlock_nesting (d : Dispenser) (n : Int) (hd : n ≤ d.nesting) :
    n ≤ (d.NextBlock n).2.nesting ∧ ((d.NextBlock n).1 = true → n < (d.NextBlock n).2.nesting) := by
  unfold Dispenser.NextBlock
  split
  · rename_i hgt
    rcases Next_spec d with ⟨h, _⟩ | h
    · rw [h]
      simp only
      generalize hd1 : ({ d with cursor := d.cursor + 1 } : Dispenser) = d1
      have hn1 : d1.nesting = d.nesting := by rw [← hd1]
      generalize hr1e : (if d1.Val = "\x7d" then
            match d1.nextOnSameLine with
            | (s, d2) => (!s, d2) else (false, d1)) = r1
      have h1 : r1.2.nesting = d.nesting := by
        rw [← hr1e]
        split
        · exact (nextOnSameLine_nesting d1).trans hn1
        · exact hn1
      generalize hr2e : (if r1.2.Val = "\x7b" then
            match r1.2.nextOnSameLine with
            | (s, d2) => (!s, d2) else (false, r1.2)) = r2
      have h2 : r2.2.nesting = d.nesting := by
        rw [← hr2e]
        split
        · exact (nextOnSameLine_nesting r1.2).trans h1
        · exact h1
      split
      · simp only [decide_eq_true_eq]
        rw [h1]
        exact ⟨by omega, fun h => h⟩
      · split
        · simp only [decide_eq_true_eq]
          rw [h2]
          exact ⟨by omega, fun h => h⟩
        · simp only [decide_eq_true_eq]
          rw [h2]
          exact ⟨by omega, fun h => h⟩
    · rw [h]
      exact ⟨hd, fun hf => by simp at hf⟩
  · rename_i hle
    have heq : d.nesting = n := by omega
    rcases nextOnSameLine_spec d with ⟨h, _⟩ | h
    · rw [h]
      simp only
      split
      · exact ⟨hd, fun hf => by simp at hf⟩
      · have hn := Next_nesting ({ d with cursor := d.cursor + 1 } : Dispenser)
        simp only at hn
        split
        · refine ⟨?_, fun hf => by simp at hf⟩
          rw [hn]; exact hd
        · simp only
          rw [hn]
          exact ⟨by omega, fun _ => by omega⟩
    · rw [h]
      exact ⟨hd, fun hf => by simp at hf⟩

theorem segmentArgsLoop_nesting (fuel : Nat) (d : Dispenser) (acc : List Token) :
    (Dispenser.segmentArgsLoop fuel d acc).2.nesting = d.nesting := by
  induction fuel generalizing d acc with
  | zero => rfl
  | succ n ih =>
    unfold Dispenser.segmentArgsLoop
    have h := NextArg_nesting d
    split
    · rename_i d1 heq
      rw [heq] at h; exact h
    · rename_i d1 heq
      rw [heq] at h
      rw [ih d1 _]; exact h

theorem segmentBlockLoop_nesting (k : Int) (fuel : Nat) (d : Dispenser) (opened : Bool)
    (acc : List Token) (hd : k ≤ d.nesting) :
    k ≤ (Dispenser.segmentBlockLoop k fuel d opened acc).2.2.nesting := by
  induction fuel generalizing d opened acc with
  | zero => exact hd
  | succ n ih =>
    unfold Dispenser.segmentBlockLoop
    have h := (NextBlock_nesting d k hd).1
    split
    · rename_i d1 heq
      rw [heq] at h; exact h
    · rename_i d1 heq
      rw [heq] at h
      exact ih d1 _ _ h

theorem NextSegment_nesting (d : Dispenser) : d.nesting ≤ d.NextSegment.2.nesting := by
  unfold Dispenser.NextSegment
  have h1 := segmentArgsLoop_nesting d.rounds d d.Token?.toList
  generalize Dispenser.segmentArgsLoop d.rounds d d.Token?.toList = r1 at h1
  obtain ⟨tkns, d1⟩ := r1
  simp only at h1 ⊢
  have h2 := segmentBlockLoop_nesting d1.nesting d1.rounds d1 false tkns (le_refl _)
  generalize Dispenser.segmentBlockLoop d1.nesting d1.rounds d1 false tkns = r2 at h2 ⊢
  obtain ⟨opened, tkns1, d2⟩ := r2
  simp only at h2 ⊢
  omega

theorem UnmarshalModule_nesting (reg : Registry) (d : Dispenser) (moduleID : String) :
    d.nesting ≤ (UnmarshalModule reg d moduleID).2.nesting := by
  unfold UnmarshalModule
  split
  · exact le_refl _
  · split
    · exact le_refl _
    · have h := NextSegment_nesting d
      generalize d.NextSegment = r at h
      obtain ⟨segment, d1⟩ := r
      simp only
      split <;> exact h

theorem unmarshalLog_nesting (reg : Registry) (c : Cmd) (d : Dispenser) :
    d.nesting ≤ (c.unmarshalLog reg d).2.nesting := by
  unfold Cmd.unmarshalLog
  have h := NextArg_nesting d
  generalize d.NextArg = r at h
  obtain ⟨b, d1⟩ := r
  simp only at h
  cases b
  · exact le_of_eq h.symm
  · simp only
    split
    · exact le_of_eq h.symm
    · exact le_of_eq h.symm
    · exact le_of_eq h.symm
    · have h2 := UnmarshalModule_nesting reg d1 ("caddy.logging.writers." ++ d1.Val)
      generalize UnmarshalModule reg d1 ("caddy.logging.writers." ++ d1.Val) = r2 at h2
      obtain ⟨x, d2⟩ := r2
      simp only at h2
      cases x
      · simp only; omega
      · simp only
        split <;> (simp only; omega)

/-- A round of the loop never leaves the block it is in. -/
theorem unmarshalField_nesting (reg : Registry) (c : Cmd) (d : Dispenser) :
    d.nesting ≤ (c.unmarshalField reg d).disp.nesting := by
  unfold Cmd.unmarshalField
  have hA := Args1_nesting d
  have hR := RemainingArgsLoop_nesting d.rounds d []
  have hL := unmarshalLog_nesting reg c d
  split
  · split
    · exact le_refl _
    · generalize d.Args1 = r at hA
      obtain ⟨x, d1⟩ := r
      simp only at hA
      cases x
      · exact le_of_eq hA.symm
      · simp only
        have h2 := RemainingArgsLoop_nesting d1.rounds d1 []
        unfold Dispenser.RemainingArgs
        generalize Dispenser.RemainingArgsLoop d1.rounds d1 [] = r2 at h2
        obtain ⟨args, d2⟩ := r2
        simp only at h2 ⊢
        omega
  · split
    · exact le_refl _
    · unfold Dispenser.RemainingArgs
      generalize Dispenser.RemainingArgsLoop d.rounds d [] = r at hR
      obtain ⟨args, d1⟩ := r
      exact le_of_eq hR.symm
  · generalize d.Args1 = r at hA
    obtain ⟨x, d1⟩ := r
    cases x <;> exact le_of_eq hA.symm
  · exact le_refl _
  · exact le_refl _
  · exact le_refl _
  · generalize d.Args1 = r at hA
    obtain ⟨x, d1⟩ := r
    cases x <;> exact le_of_eq hA.symm
  · generalize c.unmarshalLog reg d = r at hL
    obtain ⟨x, d1⟩ := r
    cases x <;> exact hL
  · generalize c.unmarshalLog reg d = r at hL
    obtain ⟨x, d1⟩ := r
    cases x <;> exact hL
  · exact le_refl _

/-- A round that is reached is inside the block. -/
theorem blockState_nesting (reg : Registry) (k : Nat) (c : Cmd) (d : Dispenser) (ck : Cmd)
    (dk : Dispenser) (h : Cmd.blockState reg k c d = some (ck, dk)) (hd : 0 ≤ d.nesting) :
    0 < dk.nesting := by
  induction k generalizing c d with
  | zero =>
    rw [blockState_zero] at h
    by_cases hb : (d.NextBlock 0).1 = true
    · rw [if_pos hb] at h
      simp only [Option.some.injEq, Prod.mk.injEq] at h
      rw [← h.2]; exact (NextBlock_nesting d 0 hd).2 hb
    · rw [if_neg hb] at h; simp at h
  | succ k ih =>
    rw [blockState_succ] at h
    by_cases hb : (d.NextBlock 0).1 = true
    · rw [if_pos hb] at h
      by_cases he : (c.unmarshalField reg (d.NextBlock 0).2).err = none
      · rw [if_pos he] at h
        have h1 := (NextBlock_nesting d 0 hd).1
        have h2 := unmarshalField_nesting reg c (d.NextBlock 0).2
        exact ih _ _ h (by omega)
      · rw [if_neg he] at h; simp at h
    · rw [if_neg hb] at h; simp at h

/-- The round after an observed round that ended without error. -/
theorem blockState_step (reg : Registry) (k : Nat) (c : Cmd) (d : Dispenser) (ck : Cmd)
    (dk : Dispenser) (h : Cmd.blockState reg k c d = some (ck, dk))
    (hok : (ck.unmarshalField reg dk).err = none) :
    Cmd.blockState reg (k + 1) c d =
      Cmd.blockState reg 0 (ck.unmarshalField reg dk).cmd (ck.unmarshalField reg dk).disp := by
  induction k generalizing c d with
  | zero =>
    rw [blockState_zero] at h
    rw [blockState_succ]
    by_cases hb : (d.NextBlock 0).1 = true
    · rw [if_pos hb] at h
      simp only [Option.some.injEq, Prod.mk.injEq] at h
      rw [if_pos hb, h.1, h.2, if_pos hok]
    · rw [if_neg hb] at h; simp at h
  | succ k ih =>
    rw [blockState_succ] at h
    rw [blockState_succ]
    by_cases hb : (d.NextBlock 0).1 = true
    · rw [if_pos hb] at h
      by_cases he : (c.unmarshalField reg (d.NextBlock 0).2).err = none
      · rw [if_pos he] at h
        rw [if_pos hb, if_pos he]
        exact ih _ _ h
      · rw [if_neg he] at h; simp at h
    · rw [if_neg hb] at h; simp at h

/-- Rounds that are reached are numbered below `rounds`. -/
theorem blockState_lt_rounds (reg : Registry) (k : Nat) (c : Cmd) (d : Dispenser) (ck : Cmd)
    (dk : Dispenser) (h : Cmd.blockState reg k c d = some (ck, dk)) : k + 1 < d.rounds := by
  induction k generalizing c d with
  | zero =>
    rw [blockState_zero] at h
    by_cases hb : (d.NextBlock 0).1 = true
    · have h1 := (NextBlock_spec d 0).1.rounds_lt ((NextBlock_spec d 0).2 hb)
      have h2 : 1 ≤ (d.NextBlock 0).2.rounds := by unfold Dispenser.rounds; omega
      omega
    · rw [if_neg hb] at h; simp at h
  | succ k ih =>
    rw [blockState_succ] at h
    by_cases hb : (d.NextBlock 0).1 = true
    · rw [if_pos hb] at h
      by_cases he : (c.unmarshalField reg (d.NextBlock 0).2).err = none
      · rw [if_pos he] at h
        have h1 := (NextBlock_spec d 0).1.rounds_lt ((NextBlock_spec d 0).2 hb)
        have h2 := (unmarshalField_le reg c (d.NextBlock 0).2).rounds_le
        have h3 := ih _ _ h
        omega
      · rw [if_neg he] at h; simp at h
    · rw [if_neg hb] at h; simp at h

/-- A property of all rounds numbered below `rounds` is a property of all rounds. -/
theorem blockState_bounded (reg : Registry) (c : Cmd) (d : Dispenser)
    (P : Cmd × Dispenser → Prop)
    (h : ∀ k < d.rounds, ∀ s ∈ Cmd.blockState reg k c d, P s) :
    ∀ k ck dk, Cmd.blockState reg k c d = some (ck, dk) → P (ck, dk) := by
  intro k ck dk hk
  have := blockState_lt_rounds reg k c d ck dk hk
  exact h k (by omega) (ck, dk) hk



/-- A property of the descriptor that every round keeps, as long as the rounds reached
satisfy `Q`, holds when the loop ends, however it ends. -/
theorem unmarshalBlockLoop_rounds (reg : Registry) (P : Cmd → Prop)
    (Q : Cmd × Dispenser → Prop)
    (step : ∀ c d, P c → Q (c, d) → P (c.unmarshalField reg d).cmd)
    (fuel : Nat) (c : Cmd) (d : Dispenser)
    (hQ : ∀ k ck dk, Cmd.blockState reg k c d = some (ck, dk) → Q (ck, dk)) (hc : P c) :
    P (Cmd.unmarshalBlockLoop reg fuel c d).cmd := by
  induction fuel generalizing c d with
  | zero => exact hc
  | succ n ih =>
    rw [unmarshalBlockLoop_succ]
    by_cases hb : (d.NextBlock 0).1 = true
    · rw [if_pos hb]
      have h0 := hQ 0 c (d.NextBlock 0).2 (by rw [blockState_zero, if_pos hb])
      by_cases he : (c.unmarshalField reg (d.NextBlock 0).2).err = none
      · rw [if_pos he]
        exact ih _ _ (fun k ck dk hk => hQ (k + 1) ck dk (by
          rw [blockState_succ, if_pos hb, if_pos he]; exact hk)) (step _ _ hc h0)
      · rw [if_neg he]; exact step _ _ hc h0
    · rw [if_neg hb]; exact hc

/-- If every round that is reached ends without error, the loop ends without error. -/
theorem unmarshalBlockLoop_ok (reg : Registry) (fuel : Nat) (c : Cmd) (d : Dispenser)
    (hfuel : d.rounds ≤ fuel)
    (h : ∀ k ck dk, Cmd.blockState reg k c d = some (ck, dk) →
      (ck.unmarshalField reg dk).err = none) :
    (Cmd.unmarshalBlockLoop reg fuel c d).err = none := by
  induction fuel generalizing c d with
  | zero => unfold Dispenser.rounds at hfuel; omega
  | succ n ih =>
    rw [unmarshalBlockLoop_succ]
    by_cases hb : (d.NextBlock 0).1 = true
    · rw [if_pos hb]
      have he := h 0 c (d.NextBlock 0).2 (by rw [blockState_zero, if_pos hb])
      rw [if_pos he]
      have h1 := (NextBlock_spec d 0).1.rounds_lt ((NextBlock_spec d 0).2 hb)
      have h2 := (unmarshalField_le reg c (d.NextBlock 0).2).rounds_le
      exact ih _ _ (by omega) (fun k ck dk hk => h (k + 1) ck dk (by
        rw [blockState_succ, if_pos hb, if_pos he]; exact hk))
    · rw [if_neg hb]

/-- The inline part when no argument follows the directive name. -/
theorem unmarshalInline_bare (c : Cmd) (d : Dispenser)
    (h : d.NextArg.1 = true → d.NextArg.2.NextArg.1 = false) :
    (c.unmarshalInline d).1.Command = c.Command := by
  unfold Cmd.unmarshalInline
  generalize hr : d.NextArg = r at h
  obtain ⟨b, d1⟩ := r
  cases b
  · simp only
    repeat' split
    all_goals simp_all
  · simp only at h ⊢
    have h' := h trivial
    generalize d1.NextArg = r2 at h' ⊢
    obtain ⟨b2, d2⟩ := r2
    simp only at h'
    subst h'
    simp only
    repeat' split
    all_goals simp_all

/-- A sink that resolves is accepted by `unmarshalLog`. -/
theorem unmarshalLog_resolves (reg : Registry) (c : Cmd) (d : Dispenser)
    (h : d.sinkResolves reg = true) : ∃ raw, (c.unmarshalLog reg d).1 = .ok raw := by
  unfold Dispenser.sinkResolves at h
  generalize hn : d.NextArg = r at h
  obtain ⟨b, d1⟩ := r
  cases b
  · simp at h
  · simp only at h
    by_cases h1 : d1.Val = "stdout"
    · unfold Cmd.unmarshalLog
      rw [hn]; simp only; rw [h1]
      exact ⟨_, rfl⟩
    · by_cases h2 : d1.Val = "stderr"
      · unfold Cmd.unmarshalLog
        rw [hn]; simp only; rw [h2]
        exact ⟨_, rfl⟩
      · by_cases h3 : d1.Val = "discard"
        · unfold Cmd.unmarshalLog
          rw [hn]; simp only; rw [h3]
          exact ⟨_, rfl⟩
        · rw [unmarshalLog_other reg c d d1 hn h1 h2 h3]
          simp only [Bool.or_eq_true, beq_iff_eq, h1, h2, h3, false_or] at h
          generalize UnmarshalModule reg d1 ("caddy.logging.writers." ++ d1.Val) = r2 at h ⊢
          obtain ⟨x, d2⟩ := r2
          cases x with
          | error e => simp at h
          | ok unm =>
            simp only at h ⊢
            rw [if_pos h]
            exact ⟨_, rfl⟩

/-- A valid field is not a `command` field, and its round ends without error. -/
theorem validField_ok (reg : Registry) (c : Cmd) (d : Dispenser)
    (h : c.validField reg d = true) :
    d.Val ≠ "command" ∧ (c.unmarshalField reg d).err = none := by
  simp only [Cmd.validField, Bool.or_eq_true, Bool.and_eq_true, beq_iff_eq,
    List.isEmpty_iff] at h
  have adv : d.NextArg.1 = true → d.NextArg = (true, { d with cursor := d.cursor + 1 }) := by
    intro hn
    rcases NextArg_spec d with ⟨h1, _⟩ | h1
    · exact h1
    · rw [h1] at hn; simp at hn
  rcases h with ((((⟨hv, ha⟩ | ⟨hv, hn⟩) | hv) | hv) | hv) | ⟨hv, hs⟩
  · refine ⟨by rw [hv]; decide, ?_⟩
    unfold Cmd.unmarshalField
    rw [hv]
    simp only [ha, List.length_nil, gt_iff_lt, lt_self_iff_false, if_false]
  · rcases hv with hv | hv
    · refine ⟨by rw [hv]; decide, ?_⟩
      rw [unmarshalField_directory reg c d _ (adv hn) hv]
    · refine ⟨by rw [hv]; decide, ?_⟩
      rw [unmarshalField_timeout reg c d _ (adv hn) hv]
  · refine ⟨by rw [hv]; decide, ?_⟩
    unfold Cmd.unmarshalField
    rw [hv]; rfl
  · refine ⟨by rw [hv]; decide, ?_⟩
    unfold Cmd.unmarshalField
    rw [hv]; rfl
  · refine ⟨by rw [hv]; decide, ?_⟩
    unfold Cmd.unmarshalField
    rw [hv]; rfl
  · obtain ⟨raw, hraw⟩ := unmarshalLog_resolves reg c d hs
    rcases hv with hv | hv
    · refine ⟨by rw [hv]; decide, ?_⟩
      unfold Cmd.unmarshalField
      rw [hv]
      simp only
      generalize c.unmarshalLog reg d = r at hraw
      obtain ⟨x, d1⟩ := r
      simp only at hraw
      subst hraw
      rfl
    · refine ⟨by rw [hv]; decide, ?_⟩
      unfold Cmd.unmarshalField
      rw [hv]
      simp only
      generalize c.unmarshalLog reg d = r at hraw
      obtain ⟨x, d1⟩ := r
      simp only at hraw
      subst hraw
      rfl

/-- **C16**. Take a declaration with no inline command (no argument follows the directive
name on its line) whose block, if any, consists only of valid fields other than `command`:
every keyword that a round of the block loop dispatches is `args` (with args still empty),
`directory` or `timeout` followed by an argument, `foreground`, `startup`, `shutdown`, or
`log` or `err_log` followed by a sink name that resolves. Then `Cmd.UnmarshalCaddyfile` on a
fresh descriptor succeeds, and the command is the empty string: no error is raised for the
missing command, in no field and at the end of the block. -/
theorem missing_command_accepted (reg : Registry) (d : Dispenser)
    (hinline : d.NextArg.1 = true → d.NextArg.2.NextArg.1 = false)
    (hfields : ∀ k ck dk, Cmd.blockState reg k (Cmd.zero.unmarshalInline d).1
        (Cmd.zero.unmarshalInline d).2 = some (ck, dk) → ck.validField reg dk = true) :
    (Cmd.zero.UnmarshalCaddyfile reg d).err = none
      ∧ (Cmd.zero.UnmarshalCaddyfile reg d).cmd.Command = "" := by
  rw [UnmarshalCaddyfile_eq]
  unfold Cmd.unmarshalBlock
  refine ⟨unmarshalBlockLoop_ok reg _ _ _ (le_refl _)
    (fun k ck dk hk => (validField_ok reg ck dk (hfields k ck dk hk)).2), ?_⟩
  exact unmarshalBlockLoop_rounds reg (fun x => x.Command = "") (fun s => s.2.Val ≠ "command")
    (fun x e hx hq => (unmarshalField_command reg x e hq).trans hx) _ _ _
    (fun k ck dk hk => (validField_ok reg ck dk (hfields k ck dk hk)).1)
    (unmarshalInline_bare Cmd.zero d hinline)

/-- Witness for `missing_command_accepted`: `exec` with the block `args -l` /
`directory /tmp` / `timeout 5s` / `foreground` / `startup` / `shutdown` / `log stdout` /
`err_log file /var/log/x` parses without error and has the empty command. -/
theorem missing_command_accepted_witness :
    (Cmd.zero.UnmarshalCaddyfile sampleModules
        (decl [["exec", "\x7b"], ["args", "-l"], ["directory", "/tmp"], ["timeout", "5s"],
          ["foreground"], ["startup"], ["shutdown"], ["log", "stdout"],
          ["err_log", "file", "/var/log/x"], ["\x7d"]])).err = none
    ∧ (Cmd.zero.UnmarshalCaddyfile sampleModules
        (decl [["exec", "\x7b"], ["args", "-l"], ["directory", "/tmp"], ["timeout", "5s"],
          ["foreground"], ["startup"], ["shutdown"], ["log", "stdout"],
          ["err_log", "file", "/var/log/x"], ["\x7d"]])).cmd.Command = "" :=
  missing_command_accepted sampleModules
    (decl [["exec", "\x7b"], ["args", "-l"], ["directory", "/tmp"], ["timeout", "5s"],
      ["foreground"], ["startup"], ["shutdown"], ["log", "stdout"],
      ["err_log", "file", "/var/log/x"], ["\x7d"]])
    (by decide)
    (blockState_bounded sampleModules _ _ (fun s => s.1.validField sampleModules s.2 = true)
      (by decide))

theorem Val_of_Token (d : Dispenser) (t : Token) (h : d.Token? = some t) : d.Val = t.text := by
  unfold Dispenser.Val
  rw [h]

/-- Inside a block, `NextBlock` hands out the next token when it is not a closing brace and
not an opening brace followed by a token on its line; on an opening brace it goes one level
deeper. -/
theorem NextBlock_inside (d : Dispenser) (n : Int) (t : Token) (hn : n < d.nesting)
    (ht : ({ d with cursor := d.cursor + 1 } : Dispenser).Token? = some t)
    (hclose : t.text ≠ "\x7d")
    (hopen : t.text = "\x7b" →
      ({ d with cursor := d.cursor + 1 } : Dispenser).nextOnSameLine.1 = false) :
    d.NextBlock n =
      (true, { d with cursor := d.cursor + 1,
                      nesting := d.nesting + (if t.text = "\x7b" then 1 else 0) }) := by
  have hv := Val_of_Token _ t ht
  have hnext : d.Next = (true, { d with cursor := d.cursor + 1 }) := by
    unfold Dispenser.Token? at ht
    simp only at ht
    split at ht
    · simp at ht
    · rename_i hc
      obtain ⟨hlt, _⟩ := List.get?_eq_some.1 ht
      unfold Dispenser.Next
      rw [if_pos (by omega)]
  unfold Dispenser.NextBlock
  rw [if_pos hn, hnext]
  by_cases ho : t.text = "\x7b"
  · have hns : ({ d with cursor := d.cursor + 1 } : Dispenser).nextOnSameLine
        = (false, { d with cursor := d.cursor + 1 }) := by
      rcases nextOnSameLine_spec ({ d with cursor := d.cursor + 1 } : Dispenser) with ⟨h, _⟩ | h
      · have := hopen ho
        rw [h] at this
        simp at this
      · exact h
    have hlt : n < d.nesting + 1 := by omega
    have hne : ¬ (("\x7b" : String) = "\x7d") := by decide
    simp [hv, ho, hns, hlt, hne]
  · simp [hv, ho, hclose, hn]

/-- The fields without a required argument leave the dispenser where it is. -/
theorem unmarshalField_flag (reg : Registry) (c : Cmd) (d : Dispenser)
    (h : d.Val = "foreground" ∨ d.Val = "startup" ∨ d.Val = "shutdown") :
    (c.unmarshalField reg d).disp = d := by
  unfold Cmd.unmarshalField
  rcases h with h | h | h <;> rw [h] <;> rfl

/-- The loop stops on a keyword that has no case. -/
theorem unknown_keyword_aux (reg : Registry) (c : Cmd) (d : Dispenser) (k : Nat) (ck : Cmd)
    (dk : Dispenser) (hk : Cmd.blockState reg k c d = some (ck, dk))
    (hkw : dk.Val ∉ blockKeywords) :
    c.unmarshalBlock reg d = ⟨ck, dk, some (.err ("'" ++ dk.Val ++ "' not expected"))⟩ := by
  rw [unmarshalBlock_of_blockState reg k c d ck dk hk, unmarshalField_unknown reg ck dk hkw]
  simp

/-- **C18**, the claim as stated fails. In the block line `foreground }` the closing brace
is left on the line of `foreground`; it is not a known keyword, yet it is never dispatched
(there is no second round) and the parse succeeds; the same for `directory /tmp }`. In the
block line `foreground { startup` the opening brace left on the line is skipped: the
second round dispatches `startup`, and the parse succeeds. -/
theorem brace_left_on_line :
    ((linesTokens [["exec", "\x7b"], ["foreground", "\x7d"]]).get? 3 = some ⟨"\x7d", false⟩
      ∧ "\x7d" ∉ blockKeywords
      ∧ (Cmd.blockState noModules 0 Cmd.zero
          { tokens := linesTokens [["exec", "\x7b"], ["foreground", "\x7d"]],
            cursor := 0, nesting := 0 }).map (fun s => (s.2.Val, s.2.cursor))
        = some ("foreground", 2)
      ∧ Cmd.blockState noModules 1 Cmd.zero
          { tokens := linesTokens [["exec", "\x7b"], ["foreground", "\x7d"]],
            cursor := 0, nesting := 0 } = none
      ∧ Cmd.zero.unmarshalBlock noModules
          { tokens := linesTokens [["exec", "\x7b"], ["foreground", "\x7d"]],
            cursor := 0, nesting := 0 }
        = ⟨{ Cmd.zero with Foreground := true },
            { tokens := linesTokens [["exec", "\x7b"], ["foreground", "\x7d"]],
              cursor := 3, nesting := 0 }, none⟩)
    ∧ (Cmd.blockState noModules 1 Cmd.zero
          { tokens := linesTokens [["exec", "\x7b"], ["directory", "/tmp", "\x7d"]],
            cursor := 0, nesting := 0 } = none
      ∧ Cmd.zero.unmarshalBlock noModules
          { tokens := linesTokens [["exec", "\x7b"], ["directory", "/tmp", "\x7d"]],
            cursor := 0, nesting := 0 }
        = ⟨{ Cmd.zero with Directory := "/tmp" },
            { tokens := linesTokens [["exec", "\x7b"], ["directory", "/tmp", "\x7d"]],
              cursor := 4, nesting := 0 }, none⟩)
    ∧ ((Cmd.blockState noModules 1 Cmd.zero
          { tokens := linesTokens [["exec", "\x7b"], ["foreground", "\x7b", "startup"],
              ["\x7d"]],
            cursor := 0, nesting := 0 }).map (fun s => (s.2.Val, s.2.cursor))
        = some ("startup", 4)
      ∧ Cmd.zero.unmarshalBlock noModules
          { tokens := linesTokens [["exec", "\x7b"], ["foreground", "\x7b", "startup"],
              ["\x7d"]],
            cursor := 0, nesting := 0 }
        = ⟨{ Cmd.zero with Foreground := true, At := ["startup"] },
            { tokens := linesTokens [["exec", "\x7b"], ["foreground", "\x7b", "startup"],
                ["\x7d"]],
              cursor := 5, nesting := 0 }, none⟩) := by
  decide

/-- **C18**, amended. A block field reads only its own arguments. Take a round of the block
loop that is reached, whose keyword is `directory`, `timeout`, `foreground`, `startup` or
`shutdown`, and that ends without error: the field has read one token (`directory`,
`timeout`) or none (the other three). If a token follows (in particular one left on the same
line) that is not a closing brace and not an opening brace followed by a further token on
its line, the next round dispatches that token as its keyword; if the token is not a known
keyword, `Cmd.unmarshalBlock` fails with the error naming it. -/
theorem leftover_token_dispatched (reg : Registry) (c : Cmd) (d : Dispenser) (k : Nat)
    (ck : Cmd) (dk : Dispenser) (t : Token)
    (hnest : 0 ≤ d.nesting)
    (hk : Cmd.blockState reg k c d = some (ck, dk))
    (hkw : dk.Val = "directory" ∨ dk.Val = "timeout" ∨ dk.Val = "foreground"
      ∨ dk.Val = "startup" ∨ dk.Val = "shutdown")
    (hok : (ck.unmarshalField reg dk).err = none)
    (ht : ({ (ck.unmarshalField reg dk).disp with
              cursor := (ck.unmarshalField reg dk).disp.cursor + 1 } : Dispenser).Token?
            = some t)
    (hclose : t.text ≠ "\x7d")
    (hopen : t.text = "\x7b" →
      ({ (ck.unmarshalField reg dk).disp with
          cursor := (ck.unmarshalField reg dk).disp.cursor + 1 } : Dispenser).nextOnSameLine.1
        = false) :
    (ck.unmarshalField reg dk).disp
        = { dk with cursor := dk.cursor
              + (if dk.Val = "directory" ∨ dk.Val = "timeout" then 1 else 0) }
    ∧ Cmd.blockState reg (k + 1) c d
        = some ((ck.unmarshalField reg dk).cmd,
            { (ck.unmarshalField reg dk).disp with
              cursor := (ck.unmarshalField reg dk).disp.cursor + 1,
              nesting := (ck.unmarshalField reg dk).disp.nesting
                + (if t.text = "\x7b" then 1 else 0) })
    ∧ ({ (ck.unmarshalField reg dk).disp with
          cursor := (ck.unmarshalField reg dk).disp.cursor + 1,
          nesting := (ck.unmarshalField reg dk).disp.nesting
            + (if t.text = "\x7b" then 1 else 0) } : Dispenser).Val = t.text
    ∧ (t.text ∉ blockKeywords →
        c.unmarshalBlock reg d
          = ⟨(ck.unmarshalField reg dk).cmd,
              { (ck.unmarshalField reg dk).disp with
                cursor := (ck.unmarshalField reg dk).disp.cursor + 1,
                nesting := (ck.unmarshalField reg dk).disp.nesting
                  + (if t.text = "\x7b" then 1 else 0) },
              some (.err ("'" ++ t.text ++ "' not expected"))⟩) := by
  have hv : ({ (ck.unmarshalField reg dk).disp with
          cursor := (ck.unmarshalField reg dk).disp.cursor + 1,
          nesting := (ck.unmarshalField reg dk).disp.nesting
            + (if t.text = "\x7b" then 1 else 0) } : Dispenser).Val = t.text :=
    Val_of_Token _ t ht
  have hn : 0 < (ck.unmarshalField reg dk).disp.nesting :=
    lt_of_lt_of_le (blockState_nesting reg k c d ck dk hk hnest)
      (unmarshalField_nesting reg ck dk)
  have hnb := NextBlock_inside (ck.unmarshalField reg dk).disp 0 t hn ht hclose hopen
  have hnext : Cmd.blockState reg (k + 1) c d
      = some ((ck.unmarshalField reg dk).cmd,
          { (ck.unmarshalField reg dk).disp with
            cursor := (ck.unmarshalField reg dk).disp.cursor + 1,
            nesting := (ck.unmarshalField reg dk).disp.nesting
              + (if t.text = "\x7b" then 1 else 0) }) := by
    rw [blockState_step reg k c d ck dk hk hok, blockState_zero, hnb]
    simp
  refine ⟨?_, hnext, hv, ?_⟩
  · have arg : dk.NextArg.1 = true → dk.NextArg = (true, { dk with cursor := dk.cursor + 1 }) := by
      intro h
      rcases NextArg_spec dk with ⟨h1, _⟩ | h1
      · exact h1
      · rw [h1] at h; simp at h
    have got : (dk.Val = "directory" ∨ dk.Val = "timeout") → dk.NextArg.1 = true := by
      intro h
      by_contra hno
      have hno' : dk.NextArg.1 = false := by simpa using hno
      have := unmarshalField_noarg reg ck dk hno'
        (h.elim (fun x => Or.inl x) (fun x => Or.inr (Or.inl x)))
      rw [this] at hok
      simp at hok
    rcases hkw with h | h | h | h | h
    · rw [unmarshalField_directory reg ck dk _ (arg (got (Or.inl h))) h]
      simp [h]
    · rw [unmarshalField_timeout reg ck dk _ (arg (got (Or.inr h))) h]
      simp [h]
    · rw [unmarshalField_flag reg ck dk (Or.inl h)]
      cases dk; simp_all
    · rw [unmarshalField_flag reg ck dk (Or.inr (Or.inl h))]
      cases dk; simp_all
    · rw [unmarshalField_flag reg ck dk (Or.inr (Or.inr h))]
      cases dk; simp_all
  · intro hunk
    have := unknown_keyword_aux reg c d (k + 1) _ _ hnext (by rw [hv]; exact hunk)
    rw [this, hv]

/-- Witness for `leftover_token_dispatched`: in the block line `directory /tmp foreground`
the token `foreground` is dispatched by the next round and the parse succeeds with directory
`/tmp` and foreground set; in `directory /tmp extra` the parse fails on `extra`; in
`foreground {`, with the brace last on its line, the parse fails on the brace. -/
theorem leftover_token_dispatched_witness :
    Cmd.blockState noModules 1 Cmd.zero
        { tokens := linesTokens [["exec", "\x7b"], ["directory", "/tmp", "foreground"], ["\x7d"]],
          cursor := 0, nesting := 0 }
      = some ({ Cmd.zero with Directory := "/tmp" },
          { tokens := linesTokens [["exec", "\x7b"], ["directory", "/tmp", "foreground"],
              ["\x7d"]],
            cursor := 4, nesting := 1 })
    ∧ Cmd.zero.unmarshalBlock noModules
        { tokens := linesTokens [["exec", "\x7b"], ["directory", "/tmp", "foreground"], ["\x7d"]],
          cursor := 0, nesting := 0 }
      = ⟨{ Cmd.zero with Directory := "/tmp", Foreground := true },
          { tokens := linesTokens [["exec", "\x7b"], ["directory", "/tmp", "foreground"],
              ["\x7d"]],
            cursor := 5, nesting := 0 }, none⟩
    ∧ Cmd.zero.unmarshalBlock noModules
        { tokens := linesTokens [["exec", "\x7b"], ["directory", "/tmp", "extra"], ["\x7d"]],
          cursor := 0, nesting := 0 }
      = ⟨{ Cmd.zero with Directory := "/tmp" },
          { tokens := linesTokens [["exec", "\x7b"], ["directory", "/tmp", "extra"], ["\x7d"]],
            cursor := 4, nesting := 1 },
          some (.err "'extra' not expected")⟩
    ∧ Cmd.zero.unmarshalBlock noModules
        { tokens := linesTokens [["exec", "\x7b"], ["foreground", "\x7b"], ["\x7d"]],
          cursor := 0, nesting := 0 }
      = ⟨{ Cmd.zero with Foreground := true },
          { tokens := linesTokens [["exec", "\x7b"], ["foreground", "\x7b"], ["\x7d"]],
            cursor := 3, nesting := 2 },
          some (.err "'\x7b' not expected")⟩ := by
  refine ⟨?_, by decide, ?_, ?_⟩
  · exact (leftover_token_dispatched noModules Cmd.zero
      { tokens := linesTokens [["exec", "\x7b"], ["directory", "/tmp", "foreground"], ["\x7d"]],
        cursor := 0, nesting := 0 } 0 Cmd.zero
      { tokens := linesTokens [["exec", "\x7b"], ["directory", "/tmp", "foreground"], ["\x7d"]],
        cursor := 2, nesting := 1 }
      ⟨"foreground", false⟩ (by decide) (by decide) (by decide) (by decide) (by decide)
      (by decide) (by decide)).2.1
  · exact (leftover_token_dispatched noModules Cmd.zero
      { tokens := linesTokens [["exec", "\x7b"], ["directory", "/tmp", "extra"], ["\x7d"]],
        cursor := 0, nesting := 0 } 0 Cmd.zero
      { tokens := linesTokens [["exec", "\x7b"], ["directory", "/tmp", "extra"], ["\x7d"]],
        cursor := 2, nesting := 1 }
      ⟨"extra", false⟩ (by decide) (by decide) (by decide) (by decide) (by decide)
      (by decide) (by decide)).2.2.2 (by decide)
  · exact (leftover_token_dispatched noModules Cmd.zero
      { tokens := linesTokens [["exec", "\x7b"], ["foreground", "\x7b"], ["\x7d"]],
        cursor := 0, nesting := 0 } 0 Cmd.zero
      { tokens := linesTokens [["exec", "\x7b"], ["foreground", "\x7b"], ["\x7d"]],
        cursor := 2, nesting := 1 }
      ⟨"\x7b", false⟩ (by decide) (by decide) (by decide) (by decide) (by decide)
      (by decide) (by decide)).2.2.2 (by decide)



theorem nextOnSameLine_at (toks : List Token) (i : Nat) (n : Int) :
    (⟨toks, (i : Int), n⟩ : Dispenser).nextOnSameLine =
      match toks.get? (i + 1) with
      | some t => if t.newLine then (false, ⟨toks, (i : Int), n⟩)
                  else (true, ⟨toks, ((i + 1 : Nat) : Int), n⟩)
      | none => (false, ⟨toks, (i : Int), n⟩) := by
  unfold Dispenser.nextOnSameLine
  have h1 : ¬ ((i : Int) < 0) := by omega
  have h2 : ((i : Int) + 1).toNat = i + 1 := by omega
  simp only [h1, if_false, h2]
  rfl

theorem Val_at (toks : List Token) (i : Nat) (n : Int) (t : Token)
    (h : toks.get? i = some t) : (⟨toks, (i : Int), n⟩ : Dispenser).Val = t.text := by
  apply Val_of_Token
  unfold Dispenser.Token?
  have h1 : ¬ ((i : Int) < 0) := by omega
  simp only [h1, if_false, Int.toNat_ofNat]
  exact h

theorem NextArg_at_arg (toks : List Token) (i : Nat) (n : Int) (a : String)
    (h : toks.get? (i + 1) = some ⟨a, false⟩) (ha : a ≠ "\x7b") :
    (⟨toks, (i : Int), n⟩ : Dispenser).NextArg = (true, ⟨toks, ((i + 1 : Nat) : Int), n⟩) := by
  unfold Dispenser.NextArg
  rw [nextOnSameLine_at, h]
  simp only [Bool.false_eq_true, if_false]
  rw [Val_at toks (i + 1) n _ h]
  simp [ha]

theorem NextArg_at_stop (toks : List Token) (i : Nat) (n : Int)
    (h : ∀ r ∈ toks.get? (i + 1), r.newLine = true ∨ r.text = "\x7b") :
    (⟨toks, (i : Int), n⟩ : Dispenser).NextArg = (false, ⟨toks, (i : Int), n⟩) := by
  apply NextArg_false
  unfold Dispenser.NextArg
  rw [nextOnSameLine_at]
  cases hg : toks.get? (i + 1) with
  | none => rfl
  | some r =>
    rcases h r hg with hr | hr
    · simp [hr]
    · by_cases hnl : r.newLine = true
      · simp [hnl]
      · have hval := Val_at toks (i + 1) n r hg
        push_cast at hval
        simp [hnl, hval, hr]

/-- `RemainingArgs` on a line: the arguments up to the end of the line or the opening
brace, in order. -/
theorem RemainingArgsLoop_line (as : List String) (pre rest : List Token) (i : Nat) (n : Int)
    (acc : List String) (fuel : Nat) (hi : i + 1 = pre.length)
    (harg : ∀ a ∈ as, a ≠ "\x7b")
    (hrest : ∀ r ∈ rest.head?, r.newLine = true ∨ r.text = "\x7b")
    (hfuel : as.length < fuel) :
    Dispenser.RemainingArgsLoop fuel
        ⟨pre ++ as.map (fun s => ⟨s, false⟩) ++ rest, (i : Int), n⟩ acc
      = (acc ++ as,
          ⟨pre ++ as.map (fun s => ⟨s, false⟩) ++ rest, ((i + as.length : Nat) : Int), n⟩) := by
  induction as generalizing pre i acc fuel with
  | nil =>
    obtain ⟨f, rfl⟩ : ∃ f, fuel = f + 1 := ⟨fuel - 1, by simp at hfuel; omega⟩
    rw [Dispenser.RemainingArgsLoop, NextArg_at_stop]
    · simp
    · intro r hr
      apply hrest r
      simp only [List.map_nil, List.append_nil] at hr
      rw [hi, List.get?_eq_getElem?, List.getElem?_append_right (le_refl _)] at hr
      simpa [List.head?_eq_getElem?] using hr
  | cons a as ih =>
    obtain ⟨f, rfl⟩ : ∃ f, fuel = f + 1 := ⟨fuel - 1, by simp at hfuel; omega⟩
    have hget : (pre ++ (a :: as).map (fun s => (⟨s, false⟩ : Token)) ++ rest).get? (i + 1)
        = some ⟨a, false⟩ := by
      rw [hi, List.get?_eq_getElem?, List.append_assoc,
        List.getElem?_append_right (le_refl _)]
      simp
    rw [Dispenser.RemainingArgsLoop,
      NextArg_at_arg _ i n a hget (harg a (List.mem_cons_self _ _))]
    simp only
    rw [Val_at _ (i + 1) n _ hget]
    dsimp only
    have htoks : pre ++ (a :: as).map (fun s => (⟨s, false⟩ : Token)) ++ rest
        = (pre ++ [⟨a, false⟩]) ++ as.map (fun s => (⟨s, false⟩ : Token)) ++ rest := by
      simp
    rw [htoks, ih (pre ++ [(⟨a, false⟩ : Token)]) (i + 1) (acc ++ [a]) f (by simp [hi])
      (fun x hx => harg x (List.mem_cons_of_mem _ hx)) (by simp at hfuel; omega)]
    simp only [List.append_assoc, List.singleton_append, List.length_cons, Prod.mk.injEq,
      true_and]
    congr 1
    push_cast
    omega

theorem NextArg_first (toks : List Token) (n : Int) (t : Token) (h : toks.get? 0 = some t)
    (ht : t.text ≠ "\x7b") :
    (⟨toks, -1, n⟩ : Dispenser).NextArg = (true, ⟨toks, ((0 : Nat) : Int), n⟩) := by
  have hval := Val_at toks 0 n t h
  unfold Dispenser.NextArg Dispenser.nextOnSameLine
  simp only [Int.reduceNeg, Int.reduceLT, if_true, Int.reduceAdd]
  simp only [Nat.cast_zero] at hval
  simp [hval, ht]

/-- The inline part on a directive line `exec t1 ts...` that ends at the end of the line or
at the opening brace. -/
theorem unmarshalInline_line (c : Cmd) (nl : Bool) (t1 : String) (ts : List String)
    (rest : List Token) (harg : ∀ t ∈ t1 :: ts, t ≠ "\x7b")
    (hrest : ∀ r ∈ rest.head?, r.newLine = true ∨ r.text = "\x7b") :
    c.unmarshalInline
        (NewDispenser (⟨"exec", nl⟩ :: (t1 :: ts).map (fun s => ⟨s, false⟩) ++ rest))
      = ({ c with Command := t1, Args := ts },
          ⟨⟨"exec", nl⟩ :: (t1 :: ts).map (fun s => ⟨s, false⟩) ++ rest,
            ((1 + ts.length : Nat) : Int), 0⟩) := by
  have h0 : (⟨"exec", nl⟩ :: (t1 :: ts).map (fun s => (⟨s, false⟩ : Token)) ++ rest).get? 0
      = some ⟨"exec", nl⟩ := rfl
  have h1 : (⟨"exec", nl⟩ :: (t1 :: ts).map (fun s => (⟨s, false⟩ : Token)) ++ rest).get? (0 + 1)
      = some ⟨t1, false⟩ := rfl
  have htoks : (⟨"exec", nl⟩ :: (t1 :: ts).map (fun s => (⟨s, false⟩ : Token)) ++ rest)
      = [(⟨"exec", nl⟩ : Token), ⟨t1, false⟩] ++ ts.map (fun s => (⟨s, false⟩ : Token)) ++ rest := by
    simp
  have hloop := RemainingArgsLoop_line ts [(⟨"exec", nl⟩ : Token), ⟨t1, false⟩] rest 1 0 []
    (ts.length + rest.length + 2) rfl (fun a ha => harg a (List.mem_cons_of_mem _ ha)) hrest
    (by omega)
  rw [← htoks] at hloop
  unfold Cmd.unmarshalInline NewDispenser
  rw [NextArg_first _ 0 _ h0 (show ("exec" : String) ≠ "\x7b" by decide)]
  simp only
  rw [NextArg_at_arg _ 0 0 t1 h1 (harg t1 (List.mem_cons_self _ _))]
  simp only [if_true]
  rw [Val_at _ (0 + 1) 0 _ h1]
  unfold Dispenser.RemainingArgs
  have hr : (⟨⟨"exec", nl⟩ :: (t1 :: ts).map (fun s => (⟨s, false⟩ : Token)) ++ rest,
      ((0 + 1 : Nat) : Int), 0⟩ : Dispenser).rounds = ts.length + rest.length + 2 := by
    unfold Dispenser.rounds
    simp only [List.map_cons, List.cons_append, List.length_cons, List.length_append,
      List.length_map]
    push_cast
    omega
  rw [hr]
  simp only [Nat.zero_add] at hloop ⊢
  rw [hloop]
  simp

/-- **C13**. Inline form. Take a directive line `exec t1 t2 ... tk` (`k ≥ 1`; the tokens are
arguments, none is the opening brace) that ends at the end of the line or at the opening brace
of a block, and suppose no round of the block loop dispatches `command` or `args`. Then the
inline part of `Cmd.UnmarshalCaddyfile` sets the command to `t1` and args to `[t2, ..., tk]`
in order, and the descriptor has them when `Cmd.UnmarshalCaddyfile` ends. -/
theorem inline_form (reg : Registry) (c : Cmd) (nl : Bool) (t1 : String) (ts : List String)
    (rest : List Token) (harg : ∀ t ∈ t1 :: ts, t ≠ "\x7b")
    (hrest : ∀ r ∈ rest.head?, r.newLine = true ∨ r.text = "\x7b")
    (hblock : ∀ k ck dk,
      Cmd.blockState reg k
        (c.unmarshalInline
          (NewDispenser (⟨"exec", nl⟩ :: (t1 :: ts).map (fun s => ⟨s, false⟩) ++ rest))).1
        (c.unmarshalInline
          (NewDispenser (⟨"exec", nl⟩ :: (t1 :: ts).map (fun s => ⟨s, false⟩) ++ rest))).2
        = some (ck, dk) →
      dk.Val ≠ "command" ∧ dk.Val ≠ "args") :
    (c.unmarshalInline
        (NewDispenser (⟨"exec", nl⟩ :: (t1 :: ts).map (fun s => ⟨s, false⟩) ++ rest))).1
      = { c with Command := t1, Args := ts }
    ∧ (c.UnmarshalCaddyfile reg
        (NewDispenser (⟨"exec", nl⟩ :: (t1 :: ts).map (fun s => ⟨s, false⟩) ++ rest))).cmd.Command
      = t1
    ∧ (c.UnmarshalCaddyfile reg
        (NewDispenser (⟨"exec", nl⟩ :: (t1 :: ts).map (fun s => ⟨s, false⟩) ++ rest))).cmd.Args
      = ts := by
  have hin := unmarshalInline_line c nl t1 ts rest harg hrest
  have hfirst : (c.unmarshalInline
        (NewDispenser (⟨"exec", nl⟩ :: (t1 :: ts).map (fun s => ⟨s, false⟩) ++ rest))).1
      = { c with Command := t1, Args := ts } := by rw [hin]
  have key := unmarshalBlockLoop_rounds reg (fun x => x.Command = t1 ∧ x.Args = ts)
    (fun s => s.2.Val ≠ "command" ∧ s.2.Val ≠ "args")
    (fun x e hx hq => ⟨(unmarshalField_command reg x e hq.1).trans hx.1,
      (unmarshalField_args reg x e hq.1 hq.2).trans hx.2⟩)
    (c.unmarshalInline
        (NewDispenser (⟨"exec", nl⟩ :: (t1 :: ts).map (fun s => ⟨s, false⟩) ++ rest))).2.rounds
    _ _ hblock (by rw [hfirst]; exact ⟨rfl, rfl⟩)
  exact ⟨hfirst, key.1, key.2⟩

/-- Witness for `inline_form`: `exec echo hello world { startup }` yields command `echo`,
args `[hello, world]` and triggers `[startup]`. -/
theorem inline_form_witness :
    (Cmd.zero.UnmarshalCaddyfile noModules
        (NewDispenser (⟨"exec", true⟩ :: ["echo", "hello", "world"].map (fun s => ⟨s, false⟩)
          ++ [⟨"\x7b", false⟩, ⟨"startup", false⟩, ⟨"\x7d", false⟩]))).cmd.Command = "echo"
    ∧ (Cmd.zero.UnmarshalCaddyfile noModules
        (NewDispenser (⟨"exec", true⟩ :: ["echo", "hello", "world"].map (fun s => ⟨s, false⟩)
          ++ [⟨"\x7b", false⟩, ⟨"startup", false⟩, ⟨"\x7d", false⟩]))).cmd.Args
      = ["hello", "world"]
    ∧ Cmd.zero.UnmarshalCaddyfile noModules
        (NewDispenser (⟨"exec", true⟩ :: ["echo", "hello", "world"].map (fun s => ⟨s, false⟩)
          ++ [⟨"\x7b", false⟩, ⟨"startup", false⟩, ⟨"\x7d", false⟩]))
      = ⟨{ Cmd.zero with Command := "echo", Args := ["hello", "world"], At := ["startup"] },
          ⟨⟨"exec", true⟩ :: ["echo", "hello", "world"].map (fun s => ⟨s, false⟩)
            ++ [⟨"\x7b", false⟩, ⟨"startup", false⟩, ⟨"\x7d", false⟩], 6, 0⟩, none⟩ :=
  ⟨(inline_form noModules Cmd.zero true "echo" ["hello", "world"]
      [⟨"\x7b", false⟩, ⟨"startup", false⟩, ⟨"\x7d", false⟩] (by decide) (by decide)
      (blockState_bounded noModules _ _
        (fun s => s.2.Val ≠ "command" ∧ s.2.Val ≠ "args") (by decide))).2.1,
    (inline_form noModules Cmd.zero true "echo" ["hello", "world"]
      [⟨"\x7b", false⟩, ⟨"startup", false⟩, ⟨"\x7d", false⟩] (by decide) (by decide)
      (blockState_bounded noModules _ _
        (fun s => s.2.Val ≠ "command" ∧ s.2.Val ≠ "args") (by decide))).2.2,
    by decide⟩


end CaddyExec
